import Mathlib

/-!
Verification of the fremen scan engine (a lockfile vulnerability scanner).

Strings of the Go source are modelled as `List Char` (one element per rune;
all byte-index operations performed by the source use ASCII needles, for
which rune positions and byte positions coincide on UTF-8 input).
File contents are modelled as the list of lines delivered by `bufio.Scanner`
(for line-oriented readers) or as the raw character list (for whole-file
readers).  Maps are modelled as association lists in insertion order.
-/

set_option maxHeartbeats 1000000

namespace Fremen

abbrev Str := List Char

def str (s : String) : Str := s.data

/-- Unicode white space as tested by Go's `unicode.IsSpace`
(the White_Space property). -/
def isGoSpace (c : Char) : Bool :=
  c = ' ' || c = '\t' || c = '\n' || c.val = 0x0B || c.val = 0x0C || c = '\r' ||
  c.val = 0x85 || c.val = 0xA0 || c.val = 0x1680 ||
  (0x2000 ≤ c.val && c.val ≤ 0x200A) ||
  c.val = 0x2028 || c.val = 0x2029 || c.val = 0x202F || c.val = 0x205F ||
  c.val = 0x3000

/-- Go `strings.TrimSpace`. -/
def trimSpace (s : Str) : Str :=
  ((s.dropWhile isGoSpace).reverse.dropWhile isGoSpace).reverse

/-- Association-list lookup (model of Go map read; keys are unique by
construction in every map built by the source). -/
def alookup {α : Type} (m : List (Str × α)) (k : Str) : Option α :=
  match m with
  | [] => none
  | (k', v) :: rest => if k' = k then some v else alookup rest k

/-- Replace the value stored at the first occurrence of key `k`. -/
def aupdate {α : Type} (m : List (Str × α)) (k : Str) (v : α) : List (Str × α) :=
  match m with
  | [] => []
  | (k', v') :: rest => if k' = k then (k', v) :: rest else (k', v') :: aupdate rest k v

/-- Last index (in `s`) of a character satisfying `p`
(Go `strings.LastIndexAny` / reverse scan). -/
def lastIdxP (p : Char → Bool) : Str → Option Nat
  | [] => none
  | c :: rest =>
    match lastIdxP p rest with
    | some i => some (i + 1)
    | none => if p c then some 0 else none

/-- Start index of the last occurrence of `pat` as a contiguous substring
(Go `strings.LastIndex`). -/
def lastIndexSub (pat : Str) : Str → Option Nat
  | [] => if pat = [] then some 0 else none
  | c :: rest =>
    match lastIndexSub pat rest with
    | some i => some (i + 1)
    | none => if pat.isPrefixOf (c :: rest) then some 0 else none

/-- Go `filepath.Join dir name` for a clean `dir` and a separator-free
`name`. -/
def joinPath (dir name : Str) : Str := dir ++ '/' :: name

/-- Go `filepath.Dir` on clean paths. -/
def dirOfM (s : Str) : Str :=
  match lastIdxP (fun c => c = '/') s with
  | none => str "."
  | some 0 => str "/"
  | some i => s.take i

/-- Go `filepath.Base` on clean paths. -/
def baseOfM (s : Str) : Str :=
  match lastIdxP (fun c => c = '/') s with
  | none => s
  | some i => s.drop (i + 1)

theorem alookup_append {α : Type} (m m' : List (Str × α)) (k : Str) :
    alookup (m ++ m') k =
      match alookup m k with
      | some v => some v
      | none => alookup m' k := by
  induction m with
  | nil => simp [alookup]
  | cons p rest ih =>
    obtain ⟨k', v⟩ := p
    by_cases h : k' = k <;> simp [alookup, h, ih]

theorem alookup_aupdate_self {α : Type} {m : List (Str × α)} {k : Str} {vs : α}
    (h : alookup m k = some vs) (w : α) :
    alookup (aupdate m k w) k = some w := by
  induction m with
  | nil => simp [alookup] at h
  | cons p rest ih =>
    obtain ⟨k', v⟩ := p
    by_cases hk : k' = k
    · simp [alookup, aupdate, hk]
    · simp only [alookup, aupdate, hk, if_false] at h ⊢
      exact ih h

theorem alookup_aupdate_ne {α : Type} (m : List (Str × α)) {k k' : Str}
    (h : k' ≠ k) (w : α) : alookup (aupdate m k w) k' = alookup m k' := by
  induction m with
  | nil => rfl
  | cons p rest ih =>
    obtain ⟨k'', v⟩ := p
    show alookup (if k'' = k then (k'', w) :: rest else (k'', v) :: aupdate rest k w) k'
        = alookup ((k'', v) :: rest) k'
    by_cases hk : k'' = k
    · rw [if_pos hk]
      have hne : ¬ k'' = k' := fun hh => h (hk ▸ hh.symm)
      show (if k'' = k' then some w else alookup rest k')
          = (if k'' = k' then some v else alookup rest k')
      rw [if_neg hne, if_neg hne]
    · rw [if_neg hk]
      show (if k'' = k' then some v else alookup (aupdate rest k w) k')
          = (if k'' = k' then some v else alookup rest k')
      rw [ih]

/-! ## Vulnerability database (internal/database) -/

namespace database

structure VulnerabilityDatabase where
  entries : List (Str × List Str)
  loadedPath : Str
  entryCount : Nat
deriving DecidableEq

def dbNew : VulnerabilityDatabase := ⟨[], [], 0⟩

/-- `parseEntry` from the source: split at the first `:`, reject a missing
colon, a colon in first position or in last position, trim both parts,
reject empty parts. -/
def parseEntry (line : Str) : Option (Str × Str) :=
  match line.findIdx? (fun c => c = ':') with
  | none => none
  | some idx =>
    if idx = 0 ∨ line.length - 1 ≤ idx then none
    else if trimSpace (line.take idx) = [] ∨ trimSpace (line.drop (idx + 1)) = [] then none
    else some (trimSpace (line.take idx), trimSpace (line.drop (idx + 1)))

/-- One iteration of the `Load` scan loop, acting on the accumulated
`(newEntries, count)` state. -/
def dbInsertLine (st : List (Str × List Str) × Nat) (line : Str) :
    List (Str × List Str) × Nat :=
  let l := trimSpace line
  if l = [] then st
  else if l.head? = some '#' then st
  else
    match parseEntry l with
    | none => st
    | some (n, v) =>
      match alookup st.1 n with
      | none => (st.1 ++ [(n, [v])], st.2 + 1)
      | some vs => if v ∈ vs then st else (aupdate st.1 n (vs ++ [v]), st.2 + 1)

/-- The entry map and count built by `Load`'s scan loop from the file's
lines. -/
def buildEntries (lines : List Str) : List (Str × List Str) × Nat :=
  lines.foldl dbInsertLine ([], 0)

/-- A database file as delivered by `bufio.Scanner`: the lines it yields,
and whether `scanner.Err()` reports a failure afterwards. -/
structure DBFile where
  lines : List Str
  readErr : Bool
deriving DecidableEq

inductive DBError where
  | notFound (path : Str)
  | readError
deriving DecidableEq

/-- Path resolution at the top of `Load`: an empty path defaults to
`database.txt` next to the executable (or bare `database.txt` when the
executable path is unavailable). -/
def resolveDBPath (exe : Option Str) (path : Str) : Str :=
  if path = [] then
    match exe with
    | none => str "database.txt"
    | some e => joinPath (dirOfM e) (str "database.txt")
  else path

/-- `VulnerabilityDatabase.Load`, modelled as a state-passing function:
the returned state is the receiver after the call, the second component is
the returned error.  `fs` maps a path to the file found there. -/
def loadGo (fs : Str → Option DBFile) (exe : Option Str)
    (db : VulnerabilityDatabase) (path : Str) :
    VulnerabilityDatabase × Option DBError :=
  if db.loadedPath = resolveDBPath exe path then (db, none)
  else
    match fs (resolveDBPath exe path) with
    | none => (db, some (DBError.notFound (resolveDBPath exe path)))
    | some f =>
      if f.readErr then (db, some DBError.readError)
      else ({ entries := (buildEntries f.lines).1,
              loadedPath := resolveDBPath exe path,
              entryCount := (buildEntries f.lines).2 }, none)

/-- `VulnerabilityDatabase.IsInfected`. -/
def IsInfected (db : VulnerabilityDatabase) (name version : Str) : Bool :=
  if name = [] ∨ version = [] then false
  else
    match alookup db.entries name with
    | none => false
    | some vs => decide (version ∈ vs)

/-- Specification-level reading of one database line: trim, drop blank and
`#` lines, then parse `name:version`. -/
def linePair (line : Str) : Option (Str × Str) :=
  if trimSpace line = [] ∨ (trimSpace line).head? = some '#' then none
  else parseEntry (trimSpace line)

/-- The multiset of pairs a database file denotes. -/
def linePairs (lines : List Str) : List (Str × Str) := lines.filterMap linePair

/-- The entry-insertion action of the scan loop, once a pair has been
parsed. -/
def insertPair (st : List (Str × List Str) × Nat) (n v : Str) :
    List (Str × List Str) × Nat :=
  match alookup st.1 n with
  | none => (st.1 ++ [(n, [v])], st.2 + 1)
  | some vs => if v ∈ vs then st else (aupdate st.1 n (vs ++ [v]), st.2 + 1)

/-- A pair stored in the nested entry map. -/
def memDB (m : List (Str × List Str)) (n v : Str) : Prop :=
  ∃ vs, alookup m n = some vs ∧ v ∈ vs

theorem parseEntry_ne_nil {l n v} (h : parseEntry l = some (n, v)) :
    n ≠ [] ∧ v ≠ [] := by
  unfold parseEntry at h
  rcases hf : l.findIdx? (fun c => c = ':') with _ | idx <;> rw [hf] at h
  · exact absurd h (by simp)
  · split at h
    · exact absurd h (by simp)
    · split at h
      · exact absurd h (by simp)
      · split at h
        · exact absurd h (by simp)
        · next hne =>
            rw [Option.some_inj] at h
            rw [Prod.ext_iff] at h
            obtain ⟨h1, h2⟩ := h
            dsimp only at h1 h2
            push_neg at hne
            exact ⟨h1 ▸ hne.1, h2 ▸ hne.2⟩

theorem linePair_ne_nil {l n v} (h : linePair l = some (n, v)) :
    n ≠ [] ∧ v ≠ [] := by
  unfold linePair at h
  split at h
  · exact absurd h (by simp)
  · exact parseEntry_ne_nil h

theorem dbInsertLine_eq (st : List (Str × List Str) × Nat) (line : Str) :
    dbInsertLine st line =
      match linePair line with
      | none => st
      | some (n, v) => insertPair st n v := by
  unfold dbInsertLine linePair insertPair
  by_cases h1 : trimSpace line = [] <;>
    by_cases h2 : (trimSpace line).head? = some '#' <;>
      simp [h1, h2]




/-- The invariant the scan loop maintains: the state's membership relation
is exactly membership in the pairs processed so far, and the counter is the
number of distinct pairs. -/
def LoadInv (st : List (Str × List Str) × Nat) (pairs : List (Str × Str)) : Prop :=
  (∀ n v, memDB st.1 n v ↔ (n, v) ∈ pairs) ∧ st.2 = pairs.toFinset.card

theorem alookup_insertPair_other {st : List (Str × List Str) × Nat} {n : Str}
    (v : Str) {k : Str} (hk : k ≠ n) :
    alookup (insertPair st n v).1 k = alookup st.1 k := by
  have hnk : ¬ n = k := fun hh => hk hh.symm
  rcases hl : alookup st.1 n with _ | vs
  · have h1 : (insertPair st n v).1 = st.1 ++ [(n, [v])] := by
      simp [insertPair, hl]
    rw [h1, alookup_append]
    rcases hl' : alookup st.1 k with _ | vs'
    · show alookup [(n, [v])] k = none
      simp [alookup, hnk]
    · rfl
  · by_cases hv : v ∈ vs
    · have h1 : (insertPair st n v).1 = st.1 := by simp [insertPair, hl, hv]
      rw [h1]
    · have h1 : (insertPair st n v).1 = aupdate st.1 n (vs ++ [v]) := by
        simp [insertPair, hl, hv]
      rw [h1, alookup_aupdate_ne _ hk]

theorem memDB_insertPair_self (st : List (Str × List Str) × Nat) (n v v' : Str) :
    memDB (insertPair st n v).1 n v' ↔ memDB st.1 n v' ∨ v' = v := by
  obtain hl | ⟨vs, hl⟩ : alookup st.1 n = none ∨ ∃ vs, alookup st.1 n = some vs := by
    cases alookup st.1 n with
    | none => exact Or.inl rfl
    | some vs => exact Or.inr ⟨vs, rfl⟩
  · have h1 : (insertPair st n v).1 = st.1 ++ [(n, [v])] := by
      simp [insertPair, hl]
    have h2 : alookup (st.1 ++ [(n, [v])]) n = some [v] := by
      rw [alookup_append, hl]
      simp [alookup]
    unfold memDB
    rw [h1, h2, hl]
    constructor
    · rintro ⟨vs', hvs, hv'⟩
      cases hvs
      simp at hv'
      exact Or.inr hv'
    · rintro (⟨vs', hvs, -⟩ | hveq)
      · exact Option.noConfusion hvs
      · exact ⟨[v], rfl, by simp [hveq]⟩
  · by_cases hv : v ∈ vs
    · have h1 : (insertPair st n v).1 = st.1 := by simp [insertPair, hl, hv]
      unfold memDB
      rw [h1, hl]
      constructor
      · exact Or.inl
      · rintro (h | hveq)
        · exact h
        · exact ⟨vs, rfl, hveq ▸ hv⟩
    · have h1 : (insertPair st n v).1 = aupdate st.1 n (vs ++ [v]) := by
        simp [insertPair, hl, hv]
      unfold memDB
      rw [h1, alookup_aupdate_self hl, hl]
      constructor
      · rintro ⟨vs', hvs, hv'⟩
        cases hvs
        rcases List.mem_append.mp hv' with h | h
        · exact Or.inl ⟨vs, rfl, h⟩
        · simp at h
          exact Or.inr h
      · rintro (⟨vs'', hvs, hv'⟩ | hveq)
        · cases hvs
          exact ⟨vs ++ [v], rfl, List.mem_append_left _ hv'⟩
        · exact ⟨vs ++ [v], rfl, by simp [hveq]⟩

theorem memDB_insertPair (st : List (Str × List Str) × Nat) (n v n' v' : Str) :
    memDB (insertPair st n v).1 n' v' ↔ memDB st.1 n' v' ∨ (n' = n ∧ v' = v) := by
  by_cases hn : n' = n
  · subst hn
    rw [memDB_insertPair_self]
    simp
  · unfold memDB
    rw [alookup_insertPair_other v hn]
    constructor
    · exact Or.inl
    · rintro (h | ⟨hne, -⟩)
      · exact h
      · exact absurd hne hn

theorem count_insertPair_mem {st : List (Str × List Str) × Nat} {n v : Str}
    (h : memDB st.1 n v) : (insertPair st n v).2 = st.2 := by
  obtain ⟨vs, hl, hv⟩ := h
  simp [insertPair, hl, hv]

theorem count_insertPair_not_mem {st : List (Str × List Str) × Nat} {n v : Str}
    (h : ¬ memDB st.1 n v) : (insertPair st n v).2 = st.2 + 1 := by
  rcases hl : alookup st.1 n with _ | vs
  · simp [insertPair, hl]
  · have hv : v ∉ vs := fun hv => h ⟨vs, hl, hv⟩
    simp [insertPair, hl, hv]

theorem insertPair_inv {st pairs} (hi : LoadInv st pairs) (n v : Str) :
    LoadInv (insertPair st n v) (pairs ++ [(n, v)]) := by
  obtain ⟨hmem, hcnt⟩ := hi
  have htf : (pairs ++ [(n, v)]).toFinset = insert (n, v) pairs.toFinset := by
    ext p; simp [or_comm]
  constructor
  · intro n' v'
    rw [memDB_insertPair, hmem n' v', List.mem_append]
    simp [Prod.ext_iff]
  · by_cases hin : memDB st.1 n v
    · rw [count_insertPair_mem hin, hcnt, htf, Finset.insert_eq_self.mpr]
      rw [List.mem_toFinset]
      exact (hmem n v).mp hin
    · have hnotin : (n, v) ∉ pairs := fun h => hin ((hmem n v).mpr h)
      rw [count_insertPair_not_mem hin, hcnt, htf,
        Finset.card_insert_of_not_mem (by rw [List.mem_toFinset]; exact hnotin)]

theorem foldl_dbInsertLine_inv (lines : List Str) :
    ∀ st pairs, LoadInv st pairs →
      LoadInv (lines.foldl dbInsertLine st) (pairs ++ linePairs lines) := by
  induction lines with
  | nil => intro st pairs h; simpa [linePairs] using h
  | cons line rest ih =>
    intro st pairs h
    have hstep := dbInsertLine_eq st line
    rcases hlp : linePair line with _ | ⟨n, v⟩
    · rw [hlp] at hstep
      have : linePairs (line :: rest) = linePairs rest := by
        simp [linePairs, List.filterMap_cons, hlp]
      rw [this, List.foldl_cons, hstep]
      exact ih st pairs h
    · rw [hlp] at hstep
      have hlp2 : linePairs (line :: rest) = (n, v) :: linePairs rest := by
        simp [linePairs, List.filterMap_cons, hlp]
      rw [hlp2, List.foldl_cons, hstep]
      have := ih (insertPair st n v) (pairs ++ [(n, v)]) (insertPair_inv h n v)
      simpa using this

theorem buildEntries_inv (lines : List Str) :
    LoadInv (buildEntries lines) (linePairs lines) := by
  have := foldl_dbInsertLine_inv lines ([], 0) []
    ⟨by intro n v; simp [memDB, alookup], by simp⟩
  simpa [buildEntries] using this

theorem resolveDBPath_ne_nil (exe : Option Str) (path : Str) :
    resolveDBPath exe path ≠ [] := by
  unfold resolveDBPath
  split
  · cases exe with
    | none => simp [str]
    | some e => simp [joinPath]
  · assumption

theorem mem_linePairs_ne_nil {lines : List Str} {n v : Str}
    (h : (n, v) ∈ linePairs lines) : n ≠ [] ∧ v ≠ [] := by
  obtain ⟨line, -, hl⟩ := List.mem_filterMap.mp h
  exact linePair_ne_nil hl

/-- C1: after a successful fresh `Load` of a database file, `IsInfected`
answers membership of the literal pair among the pairs denoted by the file's
lines (`name:version` format, blank/comment lines ignored, malformed lines
silently skipped), the reported entry count counts duplicate pairs once,
and an empty name or version never matches. -/
theorem load_isInfected_spec (fs : Str → Option DBFile) (exe : Option Str)
    (path : Str) (lines : List Str)
    (hfs : fs (resolveDBPath exe path) = some ⟨lines, false⟩) :
    ∃ db', loadGo fs exe dbNew path = (db', none) ∧
      (∀ n v, IsInfected db' n v = true ↔ (n, v) ∈ linePairs lines) ∧
      db'.entryCount = (linePairs lines).toFinset.card ∧
      (∀ v, IsInfected db' [] v = false) ∧
      (∀ n, IsInfected db' n [] = false) := by
  have hrne : resolveDBPath exe path ≠ [] := resolveDBPath_ne_nil exe path
  have hskip : ¬ dbNew.loadedPath = resolveDBPath exe path := by
    intro h
    exact hrne h.symm
  obtain ⟨hmem, hcnt⟩ := buildEntries_inv lines
  refine ⟨⟨(buildEntries lines).1, resolveDBPath exe path, (buildEntries lines).2⟩,
    ?_, ?_, ?_, ?_, ?_⟩
  · unfold loadGo
    rw [if_neg hskip, hfs]
    rfl
  · intro n v
    unfold IsInfected
    by_cases hnv : n = [] ∨ v = []
    · rw [if_pos hnv]
      simp only [Bool.false_eq_true, false_iff]
      intro hmem'
      obtain ⟨hn, hv⟩ := mem_linePairs_ne_nil hmem'
      rcases hnv with h | h
      · exact hn h
      · exact hv h
    · rw [if_neg hnv]
      rcases halk : alookup (buildEntries lines).1 n with _ | vs
      · simp only [Bool.false_eq_true, false_iff]
        intro hmem'
        obtain ⟨vs', hl', -⟩ := (hmem n v).mpr hmem'
        rw [halk] at hl'
        exact Option.noConfusion hl'
      · rw [decide_eq_true_iff]
        constructor
        · intro hv
          exact (hmem n v).mp ⟨vs, halk, hv⟩
        · intro hmem'
          obtain ⟨vs', hl', hv'⟩ := (hmem n v).mpr hmem'
          rw [halk] at hl'
          cases hl'
          exact hv'
  · exact hcnt
  · intro v
    unfold IsInfected
    simp
  · intro n
    unfold IsInfected
    simp

/-- Concrete file system used to instantiate the database theorems:
`db.txt` holds one valid line, every other path is absent. -/
def fsEx : Str → Option DBFile :=
  fun p => if p = str "db.txt" then some ⟨[str "a:1"], false⟩ else none

theorem load_isInfected_spec_witness :
    ∃ db', loadGo fsEx none dbNew (str "db.txt") = (db', none) ∧
      (∀ n v, IsInfected db' n v = true ↔ (n, v) ∈ linePairs [str "a:1"]) ∧
      db'.entryCount = (linePairs [str "a:1"]).toFinset.card ∧
      (∀ v, IsInfected db' [] v = false) ∧
      (∀ n, IsInfected db' n [] = false) :=
  load_isInfected_spec fsEx none (str "db.txt") [str "a:1"] (by decide)

/-- C8: a second `Load` whose argument resolves to the same database path
is a no-op: it returns no error and the receiver state — hence entry count
and every `IsInfected` answer — is unchanged. -/
theorem load_idempotent (fs : Str → Option DBFile) (exe : Option Str)
    (db0 : VulnerabilityDatabase) (p1 p2 : Str) (db1 : VulnerabilityDatabase)
    (h1 : loadGo fs exe db0 p1 = (db1, none))
    (h2 : resolveDBPath exe p2 = resolveDBPath exe p1) :
    loadGo fs exe db1 p2 = (db1, none) := by
  have hlp : db1.loadedPath = resolveDBPath exe p1 := by
    unfold loadGo at h1
    split at h1
    · next hsk =>
        rw [Prod.mk.injEq] at h1
        rw [← h1.1]
        exact hsk
    · rcases hf : fs (resolveDBPath exe p1) with _ | f <;> rw [hf] at h1
      · exact absurd (congrArg Prod.snd h1) (by simp)
      · dsimp only at h1
        split at h1
        · exact absurd (congrArg Prod.snd h1) (by simp)
        · rw [Prod.mk.injEq] at h1
          rw [← h1.1]
  unfold loadGo
  rw [if_pos (hlp.trans h2.symm)]

/-- The database state produced by the witness load of `fsEx`. -/
def dbEx : VulnerabilityDatabase :=
  ⟨[(str "a", [str "1"])], str "db.txt", 1⟩

theorem load_idempotent_witness :
    loadGo fsEx none dbEx (str "db.txt") = (dbEx, none) :=
  load_idempotent fsEx none dbNew (str "db.txt") (str "db.txt") dbEx
    (by decide) rfl

/-- C9: an erroring `Load` (missing file or read failure) leaves the
receiver exactly as it was, so every `IsInfected` query answers as before
the failed call. -/
theorem load_error_preserves_state (fs : Str → Option DBFile) (exe : Option Str)
    (db : VulnerabilityDatabase) (path : Str) (e : DBError)
    (h : (loadGo fs exe db path).2 = some e) :
    (loadGo fs exe db path).1 = db := by
  unfold loadGo at h ⊢
  split at h
  · exact absurd h (by simp)
  · next hsk =>
      rw [if_neg hsk]
      rcases hf : fs (resolveDBPath exe path) with _ | f
      · rfl
      · rw [hf] at h
        dsimp only at h ⊢
        split at h
        · next hre => rw [if_pos hre]
        · exact absurd h (by simp)

theorem load_error_preserves_state_witness :
    (loadGo fsEx none dbNew (str "missing")).1 = dbNew :=
  load_error_preserves_state fsEx none dbNew (str "missing")
    (DBError.notFound (str "missing")) (by decide)

end database

/-! ## Scan engine (internal/scanner) -/

namespace scanner

/-- `parser.Vulnerability`. -/
structure Vulnerability where
  PackageName : Str
  Version : Str
deriving DecidableEq

/-- `scanner.vulnerabilityKey`. -/
structure vulnerabilityKey where
  Name : Str
  Version : Str
deriving DecidableEq

def vkey (v : Vulnerability) : vulnerabilityKey :=
  ⟨v.PackageName, v.Version⟩

/-- One iteration of the `deduplicateVulnerabilities` loop: skip an item
whose key has been seen, otherwise record the key and append the item. -/
def dedupStep (acc : List vulnerabilityKey × List Vulnerability)
    (v : Vulnerability) : List vulnerabilityKey × List Vulnerability :=
  if vkey v ∈ acc.1 then acc else (vkey v :: acc.1, acc.2 ++ [v])

/-- `scanner.deduplicateVulnerabilities`. -/
def deduplicateVulnerabilities (items : List Vulnerability) : List Vulnerability :=
  (items.foldl dedupStep ([], [])).2

/-- Canonical first-occurrence sublist: keep each element's first
occurrence, drop every later exact repeat. -/
def firstOccurrenceSpec : List Vulnerability → List Vulnerability
  | [] => []
  | v :: rest => v :: (firstOccurrenceSpec rest).filter (fun x => x ≠ v)

theorem vkey_inj {a b : Vulnerability} (h : vkey a = vkey b) : a = b := by
  cases a; cases b
  cases h
  rfl

/-- Structural form of the dedup loop. -/
def dedupGo (seen : List vulnerabilityKey) : List Vulnerability → List Vulnerability
  | [] => []
  | v :: rest =>
    if vkey v ∈ seen then dedupGo seen rest
    else v :: dedupGo (vkey v :: seen) rest

theorem foldl_dedupStep_eq (items : List Vulnerability) :
    ∀ seen out, (items.foldl dedupStep (seen, out)).2 = out ++ dedupGo seen items := by
  induction items with
  | nil => intro seen out; simp [dedupGo]
  | cons v rest ih =>
    intro seen out
    by_cases h : vkey v ∈ seen
    · rw [List.foldl_cons]
      rw [show dedupStep (seen, out) v = (seen, out) from by simp [dedupStep, h]]
      rw [ih seen out, dedupGo, if_pos h]
    · rw [List.foldl_cons]
      rw [show dedupStep (seen, out) v = (vkey v :: seen, out ++ [v]) from by
        simp [dedupStep, h]]
      rw [ih (vkey v :: seen) (out ++ [v]), dedupGo, if_neg h]
      simp

theorem mem_map_vkey {v : Vulnerability} {pref : List Vulnerability} :
    vkey v ∈ pref.map vkey ↔ v ∈ pref := by
  constructor
  · intro h
    obtain ⟨w, hw, he⟩ := List.mem_map.mp h
    exact (vkey_inj he.symm) ▸ hw
  · exact fun h => List.mem_map_of_mem vkey h

theorem dedupGo_eq_filter (items : List Vulnerability) :
    ∀ pref : List Vulnerability,
      dedupGo (pref.map vkey) items =
        (firstOccurrenceSpec items).filter (fun x => decide (x ∉ pref)) := by
  induction items with
  | nil => intro pref; simp [dedupGo, firstOccurrenceSpec]
  | cons v rest ih =>
    intro pref
    by_cases h : v ∈ pref
    · rw [dedupGo, if_pos (mem_map_vkey.mpr h)]
      rw [ih pref]
      rw [firstOccurrenceSpec]
      rw [List.filter_cons]
      rw [if_neg (by simp [h])]
      rw [List.filter_filter]
      apply List.filter_congr
      intro x _
      by_cases hx : x ∈ pref
      · simp [hx]
      · have hxv : ¬ x = v := fun he => hx (he ▸ h)
        simp [hx, hxv]
    · rw [dedupGo, if_neg (fun hc => h (mem_map_vkey.mp hc))]
      rw [show vkey v :: pref.map vkey = (v :: pref).map vkey from rfl]
      rw [ih (v :: pref)]
      rw [firstOccurrenceSpec]
      rw [List.filter_cons]
      rw [if_pos (by simp [h])]
      rw [List.filter_filter]
      congr 1
      apply List.filter_congr
      intro x _
      by_cases hx : x = v <;> by_cases hp : x ∈ pref <;> simp [hx, hp]

theorem dedup_eq_firstOccurrenceSpec (items : List Vulnerability) :
    deduplicateVulnerabilities items = firstOccurrenceSpec items := by
  have h := foldl_dedupStep_eq items [] []
  have h2 := dedupGo_eq_filter items []
  simp only [List.map_nil] at h2
  rw [deduplicateVulnerabilities, h, h2]
  simp

theorem mem_firstOccurrenceSpec (items : List Vulnerability) (v : Vulnerability) :
    v ∈ firstOccurrenceSpec items ↔ v ∈ items := by
  induction items with
  | nil => simp [firstOccurrenceSpec]
  | cons w rest ih =>
    rw [firstOccurrenceSpec]
    by_cases h : v = w
    · simp [h]
    · simp only [List.mem_cons, List.mem_filter]
      constructor
      · rintro (he | ⟨hm, -⟩)
        · exact Or.inl he
        · exact Or.inr (ih.mp hm)
      · rintro (he | hm)
        · exact Or.inl he
        · exact Or.inr ⟨ih.mpr hm, by simp [h]⟩

theorem nodup_firstOccurrenceSpec (items : List Vulnerability) :
    (firstOccurrenceSpec items).Nodup := by
  induction items with
  | nil => simp [firstOccurrenceSpec]
  | cons w rest ih =>
    rw [firstOccurrenceSpec]
    refine List.Nodup.cons ?_ (List.Nodup.filter _ ih)
    intro hc
    obtain ⟨-, hne⟩ := List.mem_filter.mp hc
    simp at hne

theorem sublist_firstOccurrenceSpec (items : List Vulnerability) :
    List.Sublist (firstOccurrenceSpec items) items := by
  induction items with
  | nil => simp [firstOccurrenceSpec]
  | cons w rest ih =>
    rw [firstOccurrenceSpec]
    exact List.Sublist.cons₂ w (List.Sublist.trans (List.filter_sublist _) ih)

/-- C3: `deduplicateVulnerabilities` keeps exactly the first occurrence of
each distinct (name, version) pair, in input order, dropping all later
exact repeats: it equals the canonical first-occurrence sublist, contains
an item iff the input does, has no duplicates, and is a sublist of the
input (so every kept item sits at its first-occurrence position). -/
theorem deduplicate_first_occurrences (items : List Vulnerability) :
    deduplicateVulnerabilities items = firstOccurrenceSpec items ∧
    (∀ v, v ∈ deduplicateVulnerabilities items ↔ v ∈ items) ∧
    (deduplicateVulnerabilities items).Nodup ∧
    List.Sublist (deduplicateVulnerabilities items) items := by
  refine ⟨dedup_eq_firstOccurrenceSpec items, ?_, ?_, ?_⟩
  · intro v
    rw [dedup_eq_firstOccurrenceSpec items]
    exact mem_firstOccurrenceSpec items v
  · rw [dedup_eq_firstOccurrenceSpec items]
    exact nodup_firstOccurrenceSpec items
  · rw [dedup_eq_firstOccurrenceSpec items]
    exact sublist_firstOccurrenceSpec items

/-- Kinds of registered lockfile parsers (values of `parser.LockfileParsers`). -/
inductive ParserKind where
  | npm
  | yarn
  | pnpm
deriving DecidableEq

/-- Domain of the `parser.LockfileParsers` registration map. -/
def LockfileParsersM (name : Str) : Option ParserKind :=
  if name = str "package-lock.json" then some ParserKind.npm
  else if name = str "yarn.lock" then some ParserKind.yarn
  else if name = str "pnpm-lock.yaml" then some ParserKind.pnpm
  else none

/-- `scanner.scanTask`. -/
structure scanTask where
  Dir : Str
  Lockfile : Str
deriving DecidableEq

/-- `scanner.scanResultItem`. -/
structure scanResultItem where
  Dir : Str
  Lockfile : Str
  Issues : List Vulnerability
deriving DecidableEq

/-- `scanner.projectEntry`. -/
structure projectEntry where
  Lockfiles : List Str
  Issues : List Vulnerability
deriving DecidableEq

/-- `scanner.ScanResult`. -/
structure ScanResult where
  ProjectPath : Str
  Lockfiles : List Str
  InfectedPackages : List Vulnerability
deriving DecidableEq

/-- The behaviour of the registered parsers on the scanned file system:
given a parser kind and the full lockfile path, the issue list produced and
the error returned (the engine is parametric in this, it only invokes
`parserFn(fullPath, db)` and inspects both results). -/
abbrev ParserRun := ParserKind → Str → List Vulnerability × Option Str

/-- The worker phase of `ExecuteScan`, under the sequential schedule: each
task is looked up in the parser registry (unregistered names are dropped),
its parser is run on `dir/lockfile`, one `scanResultItem` is emitted per
processed task, and parse errors accumulate into `errs` tagged by the
full path (`fmt.Errorf("parse %s: %w", ...)`). -/
def runTasks (rp : ParserRun) (tasks : List scanTask) :
    List scanResultItem × List (Str × Str) :=
  tasks.foldl
    (fun acc job =>
      match LockfileParsersM job.Lockfile with
      | none => acc
      | some k =>
        ((acc.1 ++ [⟨job.Dir, job.Lockfile, (rp k (joinPath job.Dir job.Lockfile)).1⟩]),
         match (rp k (joinPath job.Dir job.Lockfile)).2 with
         | some e => acc.2 ++ [(joinPath job.Dir job.Lockfile, e)]
         | none => acc.2))
    ([], [])

/-- Step 2 of `ExecuteScan`: fold one job result into the per-project map
(modelled as an association list in first-seen order, which is exactly the
`projects` slice order of the source). -/
def aggStep (st : List (Str × projectEntry)) (jr : scanResultItem) :
    List (Str × projectEntry) :=
  match alookup st jr.Dir with
  | none =>
    st ++ [(jr.Dir, ⟨[jr.Lockfile], if 0 < jr.Issues.length then jr.Issues else []⟩)]
  | some pe =>
    aupdate st jr.Dir
      ⟨if jr.Lockfile ∈ pe.Lockfiles then pe.Lockfiles else pe.Lockfiles ++ [jr.Lockfile],
       if 0 < jr.Issues.length then pe.Issues ++ jr.Issues else pe.Issues⟩

/-- Steps 2 and 3 of `ExecuteScan`: group items per project directory,
then emit one `ScanResult` per project in first-seen order, skipping
entries with no lockfile, deduplicating the accumulated issues. -/
def aggregateItems (items : List scanResultItem) : List ScanResult :=
  (items.foldl aggStep []).filterMap
    (fun de =>
      if de.2.Lockfiles = [] then none
      else some ⟨de.1, de.2.Lockfiles, deduplicateVulnerabilities de.2.Issues⟩)

/-- `scanner.ExecuteScan` after task collection, under the sequential
schedule: run every task, aggregate, and return the partial results
together with the accumulated (joined) errors. -/
def ExecuteScanM (rp : ParserRun) (tasks : List scanTask) :
    List ScanResult × List (Str × Str) :=
  if tasks.length = 0 then ([], [])
  else
    (aggregateItems (runTasks rp tasks).1, (runTasks rp tasks).2)

/-- The item the worker loop emits for one task (none when the lockfile
name has no registered parser). -/
def itemOf (rp : ParserRun) (t : scanTask) : Option scanResultItem :=
  match LockfileParsersM t.Lockfile with
  | none => none
  | some k => some ⟨t.Dir, t.Lockfile, (rp k (joinPath t.Dir t.Lockfile)).1⟩

/-- The error the worker loop records for one task, if any. -/
def errOf (rp : ParserRun) (t : scanTask) : Option (Str × Str) :=
  match LockfileParsersM t.Lockfile with
  | none => none
  | some k =>
    match (rp k (joinPath t.Dir t.Lockfile)).2 with
    | some e => some (joinPath t.Dir t.Lockfile, e)
    | none => none

theorem runTasks_eq_aux (rp : ParserRun) (tasks : List scanTask) :
    ∀ acc : List scanResultItem × List (Str × Str),
      tasks.foldl
        (fun acc job =>
          match LockfileParsersM job.Lockfile with
          | none => acc
          | some k =>
            ((acc.1 ++ [⟨job.Dir, job.Lockfile, (rp k (joinPath job.Dir job.Lockfile)).1⟩]),
             match (rp k (joinPath job.Dir job.Lockfile)).2 with
             | some e => acc.2 ++ [(joinPath job.Dir job.Lockfile, e)]
             | none => acc.2)) acc
      = (acc.1 ++ tasks.filterMap (itemOf rp), acc.2 ++ tasks.filterMap (errOf rp)) := by
  induction tasks with
  | nil => intro acc; simp
  | cons t rest ih =>
    intro acc
    rw [List.foldl_cons, ih]
    rcases hk : LockfileParsersM t.Lockfile with _ | k
    · simp [itemOf, errOf, hk]
    · rcases he : (rp k (joinPath t.Dir t.Lockfile)).2 with _ | e <;>
        simp [itemOf, errOf, hk, he]

theorem runTasks_eq (rp : ParserRun) (tasks : List scanTask) :
    runTasks rp tasks = (tasks.filterMap (itemOf rp), tasks.filterMap (errOf rp)) := by
  have := runTasks_eq_aux rp tasks ([], [])
  simpa [runTasks] using this

theorem aggStep_creates (st : List (Str × projectEntry)) (item : scanResultItem) :
    ∃ pe, alookup (aggStep st item) item.Dir = some pe ∧
      item.Lockfile ∈ pe.Lockfiles := by
  rcases hl : alookup st item.Dir with _ | pe
  · have heq : aggStep st item
        = st ++ [(item.Dir,
            ⟨[item.Lockfile], if 0 < item.Issues.length then item.Issues else []⟩)] := by
      simp [aggStep, hl]
    refine ⟨⟨[item.Lockfile], if 0 < item.Issues.length then item.Issues else []⟩,
      ?_, by simp⟩
    rw [heq, alookup_append, hl]
    simp [alookup]
  · have heq : aggStep st item
        = aupdate st item.Dir
            ⟨if item.Lockfile ∈ pe.Lockfiles then pe.Lockfiles
                else pe.Lockfiles ++ [item.Lockfile],
             if 0 < item.Issues.length then pe.Issues ++ item.Issues else pe.Issues⟩ := by
      simp [aggStep, hl]
    refine ⟨_, heq ▸ alookup_aupdate_self hl _, ?_⟩
    by_cases hin : item.Lockfile ∈ pe.Lockfiles <;> simp [hin]

theorem aggStep_mono {st : List (Str × projectEntry)} {d : Str} {pe : projectEntry}
    (item : scanResultItem) (h : alookup st d = some pe) :
    ∃ pe', alookup (aggStep st item) d = some pe' ∧
      ∀ l ∈ pe.Lockfiles, l ∈ pe'.Lockfiles := by
  rcases hl : alookup st item.Dir with _ | pe2
  · have heq : aggStep st item
        = st ++ [(item.Dir,
            ⟨[item.Lockfile], if 0 < item.Issues.length then item.Issues else []⟩)] := by
      simp [aggStep, hl]
    refine ⟨pe, ?_, fun l hl' => hl'⟩
    rw [heq, alookup_append, h]
  · have heq : aggStep st item
        = aupdate st item.Dir
            ⟨if item.Lockfile ∈ pe2.Lockfiles then pe2.Lockfiles
                else pe2.Lockfiles ++ [item.Lockfile],
             if 0 < item.Issues.length then pe2.Issues ++ item.Issues else pe2.Issues⟩ := by
      simp [aggStep, hl]
    by_cases hd : d = item.Dir
    · subst hd
      rw [h] at hl
      cases hl
      refine ⟨_, heq ▸ alookup_aupdate_self h _, ?_⟩
      intro l hl'
      by_cases hin : item.Lockfile ∈ pe.Lockfiles <;> simp [hin, hl']
    · refine ⟨pe, ?_, fun l hl' => hl'⟩
      rw [heq, alookup_aupdate_ne _ hd]
      exact h

theorem foldl_aggStep_mono (items : List scanResultItem) :
    ∀ {st : List (Str × projectEntry)} {d : Str} {pe : projectEntry},
      alookup st d = some pe →
      ∃ pe', alookup (items.foldl aggStep st) d = some pe' ∧
        ∀ l ∈ pe.Lockfiles, l ∈ pe'.Lockfiles := by
  induction items with
  | nil => intro st d pe h; exact ⟨pe, h, fun l hl => hl⟩
  | cons i rest ih =>
    intro st d pe h
    obtain ⟨pe1, h1, hsub1⟩ := aggStep_mono i h
    obtain ⟨pe2, h2, hsub2⟩ := ih h1
    exact ⟨pe2, h2, fun l hl => hsub2 l (hsub1 l hl)⟩

theorem foldl_aggStep_registers (items : List scanResultItem) :
    ∀ {item : scanResultItem} (st : List (Str × projectEntry)), item ∈ items →
      ∃ pe, alookup (items.foldl aggStep st) item.Dir = some pe ∧
        item.Lockfile ∈ pe.Lockfiles := by
  induction items with
  | nil => intro item st h; exact absurd h (by simp)
  | cons i rest ih =>
    intro item st h
    rcases List.mem_cons.mp h with he | hm
    · subst he
      obtain ⟨pe, h1, hin⟩ := aggStep_creates st item
      obtain ⟨pe', h2, hsub⟩ := foldl_aggStep_mono rest h1
      exact ⟨pe', h2, hsub _ hin⟩
    · exact ih (aggStep st i) hm

theorem alookup_mem {α : Type} {m : List (Str × α)} {k : Str} {v : α}
    (h : alookup m k = some v) : (k, v) ∈ m := by
  induction m with
  | nil => exact absurd h (by simp [alookup])
  | cons p rest ih =>
    obtain ⟨k', v'⟩ := p
    by_cases hk : k' = k
    · rw [alookup, if_pos hk] at h
      cases h
      simp [hk]
    · rw [alookup, if_neg hk] at h
      exact List.mem_cons_of_mem _ (ih h)

theorem mem_aggregateItems {items : List scanResultItem} {item : scanResultItem}
    (h : item ∈ items) :
    ∃ r, r ∈ aggregateItems items ∧ r.ProjectPath = item.Dir ∧
      item.Lockfile ∈ r.Lockfiles := by
  obtain ⟨pe, hl, hin⟩ := foldl_aggStep_registers items [] h
  have hmem := alookup_mem hl
  have hne : ¬ pe.Lockfiles = [] := by
    intro he
    rw [he] at hin
    exact absurd hin (by simp)
  refine ⟨⟨item.Dir, pe.Lockfiles, deduplicateVulnerabilities pe.Issues⟩, ?_, rfl, hin⟩
  unfold aggregateItems
  apply List.mem_filterMap.mpr
  exact ⟨(item.Dir, pe), hmem, by simp [hne]⟩

theorem itemOf_strip (rp : ParserRun) :
    itemOf (fun k p => ((rp k p).1, none)) = itemOf rp := by
  funext t
  unfold itemOf
  rcases LockfileParsersM t.Lockfile with _ | k <;> simp

/-- C2: when a task's registered parser returns an error, `ExecuteScan`
still registers the task's directory as a project with that lockfile
listed; the error (tagged with the full path) is accumulated into the
error value returned alongside the results; and the result list is
exactly the one an error-free run with the same per-file findings would
produce — the failed parse contributes only the findings collected before
the error, and the other tasks are unaffected. -/
theorem executeScan_parse_error (rp : ParserRun) (tasks : List scanTask)
    (t : scanTask) (k : ParserKind) (issues : List Vulnerability) (e : Str)
    (ht : t ∈ tasks)
    (hk : LockfileParsersM t.Lockfile = some k)
    (hp : rp k (joinPath t.Dir t.Lockfile) = (issues, some e)) :
    (∃ r, r ∈ (ExecuteScanM rp tasks).1 ∧ r.ProjectPath = t.Dir ∧
        t.Lockfile ∈ r.Lockfiles) ∧
    (joinPath t.Dir t.Lockfile, e) ∈ (ExecuteScanM rp tasks).2 ∧
    (ExecuteScanM (fun k' p => ((rp k' p).1, none)) tasks).1
      = (ExecuteScanM rp tasks).1 := by
  have hlen : ¬ tasks.length = 0 := by
    intro h0
    rw [List.length_eq_zero] at h0
    rw [h0] at ht
    exact absurd ht (by simp)
  have hexe : ExecuteScanM rp tasks
      = (aggregateItems (tasks.filterMap (itemOf rp)), tasks.filterMap (errOf rp)) := by
    rw [ExecuteScanM, if_neg hlen, runTasks_eq]
  have hexe' : ExecuteScanM (fun k' p => ((rp k' p).1, none)) tasks
      = (aggregateItems (tasks.filterMap (itemOf rp)),
         tasks.filterMap (errOf (fun k' p => ((rp k' p).1, none)))) := by
    rw [ExecuteScanM, if_neg hlen, runTasks_eq, itemOf_strip]
  refine ⟨?_, ?_, ?_⟩
  · rw [hexe]
    have hitem : itemOf rp t = some ⟨t.Dir, t.Lockfile, issues⟩ := by
      simp [itemOf, hk, hp]
    have : (⟨t.Dir, t.Lockfile, issues⟩ : scanResultItem) ∈ tasks.filterMap (itemOf rp) :=
      List.mem_filterMap.mpr ⟨t, ht, hitem⟩
    obtain ⟨r, hr, h1, h2⟩ := mem_aggregateItems this
    exact ⟨r, hr, h1, h2⟩
  · rw [hexe]
    apply List.mem_filterMap.mpr
    refine ⟨t, ht, ?_⟩
    simp [errOf, hk, hp]
  · rw [hexe, hexe']

/-- A parser behaviour that fails on every file, used to instantiate the
engine theorems. -/
def rpFail : ParserRun := fun _ _ => ([], some (str "boom"))

theorem executeScan_parse_error_witness :
    (∃ r, r ∈ (ExecuteScanM rpFail [⟨str "/p", str "yarn.lock"⟩]).1 ∧
        r.ProjectPath = str "/p" ∧
        str "yarn.lock" ∈ r.Lockfiles) ∧
    (joinPath (str "/p") (str "yarn.lock"), str "boom")
        ∈ (ExecuteScanM rpFail [⟨str "/p", str "yarn.lock"⟩]).2 ∧
    (ExecuteScanM (fun k' p => ((rpFail k' p).1, none)) [⟨str "/p", str "yarn.lock"⟩]).1
      = (ExecuteScanM rpFail [⟨str "/p", str "yarn.lock"⟩]).1 :=
  executeScan_parse_error rpFail [⟨str "/p", str "yarn.lock"⟩]
    ⟨str "/p", str "yarn.lock"⟩ ParserKind.yarn [] (str "boom")
    (by simp) (by decide) rfl

end scanner

/-! ## Lockfile parsers (internal/parser) -/

namespace parser

open scanner (Vulnerability)
open database (VulnerabilityDatabase IsInfected)

/-- Generic fold-append characterization used to read the parser loops as
`filterMap`s. -/
theorem foldl_append_filterMap {α β : Type} (f : α → Option β) (l : List α) :
    ∀ init : List β,
      l.foldl (fun acc x =>
        match f x with
        | some v => acc ++ [v]
        | none => acc) init = init ++ l.filterMap f := by
  induction l with
  | nil => intro init; simp
  | cons x rest ih =>
    intro init
    rw [List.foldl_cons]
    rcases hf : f x with _ | v
    · rw [ih init]
      simp [List.filterMap_cons, hf]
    · rw [ih (init ++ [v])]
      simp [List.filterMap_cons, hf]

/-- The constant `"node_modules/"`. -/
def npmNM : Str := str "node_modules/"

/-- `parser.npmPackageName`: the segment after the last occurrence of
`node_modules/`, or the whole path when absent (`filepath.ToSlash` is the
identity on slash-separated platforms). -/
def npmPackageName (path : Str) : Str :=
  match lastIndexSub npmNM path with
  | some i => path.drop (i + npmNM.length)
  | none => path

/-- `parser.isVulnerable`. -/
def isVulnerable (db : VulnerabilityDatabase) (n v : Str) : Bool :=
  if n = [] ∨ v = [] then false else IsInfected db n v

/-- An npm lockfile after JSON decoding: the legacy `dependencies` mapping
and the modern `packages` mapping, each a map from key to the entry's
`version` field. -/
structure NpmLockfile where
  Dependencies : List (Str × Str)
  Packages : List (Str × Str)

/-- `parser.parseNpmLockfile` after JSON decoding: scan the legacy section,
then the modern section (skipping the root empty key and deriving the
package name with `npmPackageName`), appending a finding for every entry
the database flags. -/
def parseNpmLockfile (db : VulnerabilityDatabase) (lf : NpmLockfile) :
    List Vulnerability :=
  lf.Packages.foldl
    (fun acc kv =>
      if kv.1 = [] then acc
      else if isVulnerable db (npmPackageName kv.1) kv.2 then
        acc ++ [⟨npmPackageName kv.1, kv.2⟩]
      else acc)
    (lf.Dependencies.foldl
      (fun acc kv =>
        if isVulnerable db kv.1 kv.2 then acc ++ [⟨kv.1, kv.2⟩] else acc)
      [])

theorem npmLegacyLoop_eq (db : VulnerabilityDatabase) (l : List (Str × Str)) :
    ∀ init : List Vulnerability,
      l.foldl (fun acc kv =>
        if isVulnerable db kv.1 kv.2 then acc ++ [⟨kv.1, kv.2⟩] else acc) init
      = init ++ l.filterMap
          (fun kv => if isVulnerable db kv.1 kv.2 then some ⟨kv.1, kv.2⟩ else none) := by
  induction l with
  | nil => intro init; simp
  | cons kv rest ih =>
    intro init
    rw [List.foldl_cons]
    by_cases h : isVulnerable db kv.1 kv.2
    · rw [if_pos h, ih]
      simp [List.filterMap_cons, h]
    · rw [if_neg h, ih]
      simp [List.filterMap_cons, h]

theorem npmPackagesLoop_eq (db : VulnerabilityDatabase) (l : List (Str × Str)) :
    ∀ init : List Vulnerability,
      l.foldl (fun acc kv =>
        if kv.1 = [] then acc
        else if isVulnerable db (npmPackageName kv.1) kv.2 then
          acc ++ [⟨npmPackageName kv.1, kv.2⟩]
        else acc) init
      = init ++ l.filterMap
          (fun kv =>
            if kv.1 = [] then none
            else if isVulnerable db (npmPackageName kv.1) kv.2 then
              some ⟨npmPackageName kv.1, kv.2⟩
            else none) := by
  induction l with
  | nil => intro init; simp
  | cons kv rest ih =>
    intro init
    rw [List.foldl_cons]
    by_cases h0 : kv.1 = []
    · rw [if_pos h0, ih]
      simp [List.filterMap_cons, h0]
    · by_cases h : isVulnerable db (npmPackageName kv.1) kv.2
      · rw [if_neg h0, if_pos h, ih]
        simp [List.filterMap_cons, h0, h]
      · rw [if_neg h0, if_neg h, ih]
        simp [List.filterMap_cons, h0, h]

theorem isPrefixOf_exists : ∀ p s : Str, p.isPrefixOf s = true ↔ ∃ t, s = p ++ t
  | [], s => by simp [List.isPrefixOf]
  | c :: p, [] => by
    simp only [List.isPrefixOf, Bool.false_eq_true, false_iff]
    rintro ⟨t, ht⟩
    exact List.noConfusion ht
  | c :: p, d :: s => by
    simp only [List.isPrefixOf, Bool.and_eq_true, beq_iff_eq]
    rw [isPrefixOf_exists p s]
    constructor
    · rintro ⟨rfl, t, rfl⟩
      exact ⟨t, rfl⟩
    · rintro ⟨t, ht⟩
      rw [List.cons_append] at ht
      cases ht
      exact ⟨rfl, t, rfl⟩

theorem lastIndexSub_eq_none_iff {pat : Str} (hp : pat ≠ []) (s : Str) :
    lastIndexSub pat s = none ↔ ¬ ∃ a b, s = a ++ pat ++ b := by
  induction s with
  | nil =>
    rw [lastIndexSub, if_neg hp]
    simp only [true_iff]
    rintro ⟨a, b, hab⟩
    have := congrArg List.length hab
    simp at this
    exact hp (List.length_eq_zero.mp (by omega))
  | cons c rest ih =>
    have hocc : (∃ a b, c :: rest = a ++ pat ++ b) ↔
        (pat.isPrefixOf (c :: rest) = true ∨ ∃ a b, rest = a ++ pat ++ b) := by
      constructor
      · rintro ⟨a, b, hab⟩
        cases a with
        | nil =>
          simp only [List.nil_append] at hab
          exact Or.inl ((isPrefixOf_exists pat (c :: rest)).mpr ⟨b, hab⟩)
        | cons a0 a' =>
          rw [List.cons_append, List.cons_append] at hab
          cases hab
          exact Or.inr ⟨a', b, rfl⟩
      · rintro (hpre | ⟨a, b, hab⟩)
        · obtain ⟨t, ht⟩ := (isPrefixOf_exists pat (c :: rest)).mp hpre
          exact ⟨[], t, by simpa using ht⟩
        · exact ⟨c :: a, b, by rw [hab]; rfl⟩
    rcases hrest : lastIndexSub pat rest with _ | i
    · have hred : lastIndexSub pat (c :: rest)
          = if pat.isPrefixOf (c :: rest) = true then some 0 else none := by
        rw [lastIndexSub, hrest]
      rw [hred, hocc]
      by_cases hpre : pat.isPrefixOf (c :: rest) = true
      · simp [hpre]
      · rw [if_neg hpre]
        simp only [true_iff]
        rintro (hx | hx)
        · exact hpre hx
        · exact (ih.mp hrest) hx
    · have hred : lastIndexSub pat (c :: rest) = some (i + 1) := by
        rw [lastIndexSub, hrest]
      have hocc2 : ∃ a b, rest = a ++ pat ++ b := by
        by_contra hno
        have := ih.mpr hno
        rw [this] at hrest
        exact Option.noConfusion hrest
      rw [hred, hocc]
      constructor
      · intro hx
        exact Option.noConfusion hx
      · intro hx
        exact absurd (Or.inr hocc2) hx

theorem lastIndexSub_last_occ {pat : Str} (hp : pat ≠ []) (a b : Str)
    (hb : ¬ ∃ x y, pat.drop 1 ++ b = x ++ pat ++ y) :
    lastIndexSub pat (a ++ pat ++ b) = some a.length := by
  induction a with
  | nil =>
    obtain ⟨c, pt, rfl⟩ : ∃ c pt, pat = c :: pt := by
      cases pat with
      | nil => exact absurd rfl hp
      | cons c pt => exact ⟨c, pt, rfl⟩
    simp only [List.nil_append, List.cons_append, List.length_nil]
    rw [lastIndexSub]
    have hrest : lastIndexSub (c :: pt) (pt ++ b) = none := by
      rw [lastIndexSub_eq_none_iff hp]
      simpa using hb
    rw [hrest]
    rw [if_pos ((isPrefixOf_exists _ _).mpr ⟨b, by simp⟩)]
  | cons a0 a' ih =>
    rw [List.cons_append, List.cons_append, lastIndexSub, ih]
    simp

/-- The self-overlap check for `node_modules/`: no proper nonempty border. -/
theorem npmNM_no_border :
    ∀ k, k < 13 → 1 ≤ k → npmNM.take k ≠ npmNM.drop (13 - k) := by
  decide

theorem npmNM_no_overlap (b : Str) (hb : ¬ ∃ x y, b = x ++ npmNM ++ y) :
    ¬ ∃ x y, npmNM.drop 1 ++ b = x ++ npmNM ++ y := by
  rintro ⟨x, y, hxy⟩
  have hlen : (npmNM.drop 1).length = 12 := by decide
  have hnmlen : npmNM.length = 13 := by decide
  rw [List.append_assoc] at hxy
  rcases List.append_eq_append_iff.mp hxy with ⟨a', ha1, ha2⟩ | ⟨c', hc1, hc2⟩
  · exact hb ⟨a', y, by rw [ha2, List.append_assoc]⟩
  · cases c' with
    | nil =>
      rw [List.append_nil] at hc1
      simp only [List.nil_append] at hc2
      exact hb ⟨[], y, by rw [← hc2]; rfl⟩
    | cons c0 ct =>
      set c' := c0 :: ct with hc'
      have hclen : c'.length ≤ 12 := by
        have := congrArg List.length hc1
        simp at this
        omega
      have hcge : 1 ≤ c'.length := by simp [hc']
      -- c' is a suffix of npmNM.drop 1, at offset x.length
      have hcdrop : c' = npmNM.drop (13 - c'.length) := by
        have hxlen : x.length = 12 - c'.length := by
          have := congrArg List.length hc1
          simp at this
          omega
        have h1 : (x ++ c').drop x.length = c' := by
          rw [List.drop_left]
        rw [← hc1] at h1
        rw [List.drop_drop] at h1
        rw [hxlen] at h1
        rw [show 1 + (12 - c'.length) = 13 - c'.length from by omega] at h1
        exact h1.symm
      -- c' is a prefix of npmNM
      have hctake : c' = npmNM.take c'.length := by
        have h1 : (npmNM ++ y).take c'.length = (c' ++ b).take c'.length := by
          rw [hc2]
        rw [List.take_left] at h1
        rw [List.take_append_of_le_length (by omega)] at h1
        exact h1.symm
      exact npmNM_no_border c'.length (by omega) hcge (hctake ▸ hcdrop)

/-- C10: in the npm parser's modern `packages` section, a key without the
substring `node_modules/` is used whole as the package name; a key
containing it uses the segment after its last occurrence; and the section
loop checks exactly `npmPackageName key` (with the root empty key skipped)
against the database, after the legacy section. -/
theorem npmPackageName_spec :
    (∀ key : Str, (¬ ∃ a b, key = a ++ npmNM ++ b) → npmPackageName key = key) ∧
    (∀ a b : Str, (¬ ∃ x y, b = x ++ npmNM ++ y) →
        npmPackageName (a ++ npmNM ++ b) = b) ∧
    (∀ (db : VulnerabilityDatabase) (lf : NpmLockfile),
        parseNpmLockfile db lf
          = lf.Dependencies.filterMap
              (fun kv => if isVulnerable db kv.1 kv.2 then
                some ⟨kv.1, kv.2⟩ else none)
            ++ lf.Packages.filterMap
              (fun kv =>
                if kv.1 = [] then none
                else if isVulnerable db (npmPackageName kv.1) kv.2 then
                  some ⟨npmPackageName kv.1, kv.2⟩
                else none)) := by
  have hp : npmNM ≠ [] := by decide
  refine ⟨?_, ?_, ?_⟩
  · intro key hkey
    rw [npmPackageName]
    rw [show lastIndexSub npmNM key = none from
      (lastIndexSub_eq_none_iff hp key).mpr hkey]
  · intro a b hb
    rw [npmPackageName]
    rw [lastIndexSub_last_occ hp a b (npmNM_no_overlap b hb)]
    show (a ++ npmNM ++ b).drop (a.length + npmNM.length) = b
    exact List.drop_left' (by simp)
  · intro db lf
    unfold parseNpmLockfile
    rw [npmLegacyLoop_eq db lf.Dependencies []]
    rw [npmPackagesLoop_eq db lf.Packages]
    rw [List.nil_append]

theorem npmPackageName_spec_witness :
    npmPackageName (str "@scope/pkg") = str "@scope/pkg" ∧
    npmPackageName (str "node_modules/a/" ++ npmNM ++ str "b") = str "b" := by
  have h := npmPackageName_spec
  constructor
  · exact h.1 (str "@scope/pkg")
      ((lastIndexSub_eq_none_iff (by decide) (str "@scope/pkg")).mp (by decide))
  · exact h.2.1 (str "node_modules/a/") (str "b")
      ((lastIndexSub_eq_none_iff (by decide) (str "b")).mp (by decide))

/-! ### pnpm parser -/

/-- RE2's Perl class `\s`: tab, newline, form feed, carriage return,
space. -/
def isRE2space (c : Char) : Bool :=
  c = '\t' || c = '\n' || c.val = 0x0C || c = '\r' || c = ' '

def quoteChar (c : Char) : Bool := c = '\'' || c = '"'

/-- The character class `[^:'"\s]` of `pnpmKeyPattern`. -/
def pnpmClass (c : Char) : Bool :=
  !(c = ':' || quoteChar c || isRE2space c)

/-- The tail `([^:'"\s]+)['"]?:` of `pnpmKeyPattern` at a given position:
a nonempty maximal class run, then an optional quote, then a colon
(greedy matching with backtracking collapses to exactly this test, because
the class excludes quotes, colons and whitespace). -/
def pnpmClassRun (s : Str) : Option Str :=
  if s.takeWhile pnpmClass = [] then none
  else
    match s.dropWhile pnpmClass with
    | ':' :: _ => some (s.takeWhile pnpmClass)
    | q :: ':' :: _ => if quoteChar q then some (s.takeWhile pnpmClass) else none
    | _ => none

/-- `pnpmKeyPattern.FindStringSubmatch` on one line: `^\s+['"]?/?` then the
captured class run.  The optional `/` is greedy, backtracking to keep the
slash inside the capture when consuming it leaves no match. -/
def pnpmKeyOfLine (line : Str) : Option Str :=
  if line.takeWhile isRE2space = [] then none
  else
    let rest := line.dropWhile isRE2space
    let rest1 := match rest with
      | c :: t => if quoteChar c then t else rest
      | [] => rest
    match rest1 with
    | '/' :: rest2 =>
      match pnpmClassRun rest2 with
      | some r => some r
      | none => pnpmClassRun rest1
    | _ => pnpmClassRun rest1

/-- `parser.pnpmIgnoredKeys`. -/
def pnpmIgnoredKeysM : List Str :=
  [str "resolution", str "engines", str "os", str "cpu",
   str "peerDependencies", str "dependencies", str "optionalDependencies",
   str "devDependencies", str "transitivePeerDependencies", str "dev",
   str "hasBin", str "requiresBuild", str "name", str "version",
   str "lockfileVersion", str "settings", str "importers", str "packages",
   str "specifiers", str "patchedDependencies"]

def sepChar (c : Char) : Bool := c = '/' || c = '@'

/-- `parser.parsePnpmKey`: strip a parenthetical suffix, split at the last
`/` or `@`, reject splits at the very start or end, strip a trailing
underscore-qualified suffix from the version, require both parts
nonempty. -/
def parsePnpmKey (key : Str) : Option (Str × Str) :=
  match lastIdxP sepChar (key.takeWhile (fun c => c ≠ '(')) with
  | none => none
  | some sep =>
    if sep = 0 ∨ (key.takeWhile (fun c => c ≠ '(')).length - 1 ≤ sep then none
    else
      if (key.takeWhile (fun c => c ≠ '(')).take sep = [] ∨
          (((key.takeWhile (fun c => c ≠ '(')).drop (sep + 1)).takeWhile
            (fun c => c ≠ '_')) = [] then none
      else some ((key.takeWhile (fun c => c ≠ '(')).take sep,
        ((key.takeWhile (fun c => c ≠ '(')).drop (sep + 1)).takeWhile
          (fun c => c ≠ '_'))

/-- The finding contributed by one pnpm lockfile line. -/
def pnpmLineFinding (db : VulnerabilityDatabase) (line : Str) :
    Option Vulnerability :=
  match pnpmKeyOfLine line with
  | none => none
  | some key =>
    if key ∈ pnpmIgnoredKeysM then none
    else
      match parsePnpmKey key with
      | none => none
      | some (n, v) => if IsInfected db n v then some ⟨n, v⟩ else none

/-- `parser.parsePnpmLockfile` over the scanned lines. -/
def parsePnpmLockfile (db : VulnerabilityDatabase) (lines : List Str) :
    List Vulnerability :=
  lines.foldl
    (fun acc line =>
      match pnpmKeyOfLine line with
      | none => acc
      | some key =>
        if key ∈ pnpmIgnoredKeysM then acc
        else
          match parsePnpmKey key with
          | none => acc
          | some (n, v) => if IsInfected db n v then acc ++ [⟨n, v⟩] else acc)
    []

theorem lastIdxP_eq_none_iff (p : Char → Bool) (s : Str) :
    lastIdxP p s = none ↔ ∀ c ∈ s, ¬ p c = true := by
  induction s with
  | nil => simp [lastIdxP]
  | cons c rest ih =>
    rcases hrest : lastIdxP p rest with _ | i
    · have hred : lastIdxP p (c :: rest) = if p c then some 0 else none := by
        rw [lastIdxP, hrest]
      rw [hred]
      by_cases hc : p c = true
      · simp [hc]
      · rw [if_neg hc]
        constructor
        · intro _ x hx
          rcases List.mem_cons.mp hx with rfl | hx'
          · exact hc
          · exact ih.mp hrest x hx'
        · intro _
          rfl
    · have hred : lastIdxP p (c :: rest) = some (i + 1) := by
        rw [lastIdxP, hrest]
      rw [hred]
      simp only [reduceCtorEq, false_iff]
      intro hall
      have : lastIdxP p rest = none := ih.mpr (fun x hx => hall x (List.mem_cons_of_mem c hx))
      rw [this] at hrest
      exact Option.noConfusion hrest

theorem lastIdxP_some_decomp {p : Char → Bool} {s : Str} {i : Nat}
    (h : lastIdxP p s = some i) :
    ∃ a c b, s = a ++ c :: b ∧ a.length = i ∧ p c = true ∧
      ∀ x ∈ b, ¬ p x = true := by
  induction s generalizing i with
  | nil => exact absurd h (by simp [lastIdxP])
  | cons c rest ih =>
    rcases hrest : lastIdxP p rest with _ | j
    · have hred : lastIdxP p (c :: rest) = if p c then some 0 else none := by
        rw [lastIdxP, hrest]
      rw [hred] at h
      split at h
      · next hc =>
          cases h
          exact ⟨[], c, rest, rfl, rfl, hc, (lastIdxP_eq_none_iff p rest).mp hrest⟩
      · exact absurd h (by simp)
    · have hred : lastIdxP p (c :: rest) = some (j + 1) := by
        rw [lastIdxP, hrest]
      rw [hred] at h
      cases h
      obtain ⟨a, d, b, hdec, hlen, hd, hb⟩ := ih hrest
      exact ⟨c :: a, d, b, by rw [hdec]; rfl, by simp [hlen], hd, hb⟩

theorem lastIdxP_append_last {p : Char → Bool} (a : Str) {c : Char} {b : Str}
    (hc : p c = true) (hb : ∀ x ∈ b, ¬ p x = true) :
    lastIdxP p (a ++ c :: b) = some a.length := by
  induction a with
  | nil =>
    have hrest : lastIdxP p b = none := (lastIdxP_eq_none_iff p b).mpr hb
    rw [List.nil_append, lastIdxP, hrest, if_pos hc]
    rfl
  | cons a0 a' ih =>
    rw [List.cons_append, lastIdxP, ih]
    simp

theorem parsePnpmLoop_eq (db : VulnerabilityDatabase) (lines : List Str) :
    ∀ init : List Vulnerability,
      lines.foldl
        (fun acc line =>
          match pnpmKeyOfLine line with
          | none => acc
          | some key =>
            if key ∈ pnpmIgnoredKeysM then acc
            else
              match parsePnpmKey key with
              | none => acc
              | some (n, v) => if IsInfected db n v then acc ++ [⟨n, v⟩] else acc)
        init
      = init ++ lines.filterMap (pnpmLineFinding db) := by
  induction lines with
  | nil => intro init; simp
  | cons line rest ih =>
    intro init
    rw [List.foldl_cons]
    have hstep : ∀ acc : List Vulnerability,
        (match pnpmKeyOfLine line with
          | none => acc
          | some key =>
            if key ∈ pnpmIgnoredKeysM then acc
            else
              match parsePnpmKey key with
              | none => acc
              | some (n, v) => if IsInfected db n v then acc ++ [⟨n, v⟩] else acc)
        = acc ++ (pnpmLineFinding db line).toList := by
      intro acc
      unfold pnpmLineFinding
      rcases pnpmKeyOfLine line with _ | key
      · simp
      · dsimp only
        by_cases hig : key ∈ pnpmIgnoredKeysM
        · simp [hig]
        · rw [if_neg hig, if_neg hig]
          rcases parsePnpmKey key with _ | ⟨n, v⟩
          · simp
          · dsimp only
            by_cases hinf : IsInfected db n v <;> simp [hinf]
    rw [hstep init, ih, List.filterMap_cons]
    rcases pnpmLineFinding db line with _ | f <;> simp

/-- The database of the pnpm scenario: exactly `test-package:1.0.0`
loaded. -/
def dbT : VulnerabilityDatabase :=
  ⟨(database.buildEntries [str "test-package:1.0.0"]).1, str "db.txt",
   (database.buildEntries [str "test-package:1.0.0"]).2⟩

/-- C4: the pnpm parser reports, per candidate key line, exactly the pair
obtained by stripping a parenthetical suffix, splitting at the last `/` or
`@` (rejecting a split at the very start or end), and stripping the
version's underscore suffix — reported iff both parts are nonempty and the
database contains the pair; with `test-package:1.0.0` loaded, the line
`  /test-package@1.0.0:` yields exactly that one finding while
`  lodash@4.17.21:` yields none. -/
theorem parsePnpm_spec :
    (∀ (db : VulnerabilityDatabase) (lines : List Str),
        parsePnpmLockfile db lines = lines.filterMap (pnpmLineFinding db)) ∧
    (∀ key n v, parsePnpmKey key = some (n, v) ↔
        ∃ c vraw, key.takeWhile (fun c => c ≠ '(') = n ++ c :: vraw ∧
          (c = '/' ∨ c = '@') ∧ n ≠ [] ∧ vraw ≠ [] ∧
          (∀ x ∈ vraw, ¬ (x = '/' ∨ x = '@')) ∧
          v = vraw.takeWhile (fun c => c ≠ '_') ∧ v ≠ []) ∧
    parsePnpmLockfile dbT [str "  /test-package@1.0.0:"]
      = [⟨str "test-package", str "1.0.0"⟩] ∧
    parsePnpmLockfile dbT [str "  lodash@4.17.21:"] = [] := by
  refine ⟨?_, ?_, by decide, by decide⟩
  · intro db lines
    rw [parsePnpmLockfile, parsePnpmLoop_eq db lines []]
    rw [List.nil_append]
  · intro key n v
    constructor
    · intro h
      unfold parsePnpmKey at h
      rcases hL : lastIdxP sepChar (key.takeWhile (fun c => c ≠ '(')) with _ | sep <;>
        rw [hL] at h <;> dsimp only at h
      · exact absurd h (by simp)
      · split at h
        · exact absurd h (by simp)
        · next hrange =>
            split at h
            · exact absurd h (by simp)
            · next hne =>
                rw [Option.some_inj, Prod.ext_iff] at h
                obtain ⟨h1, h2⟩ := h
                dsimp only at h1 h2
                push_neg at hrange hne
                obtain ⟨hsep0, hseplen⟩ := hrange
                obtain ⟨a, c, b, hdec, hlen, hc, hb⟩ := lastIdxP_some_decomp hL
                have htake : (key.takeWhile (fun c => c ≠ '(')).take sep = a := by
                  rw [hdec, ← hlen, List.take_left]
                have hdrop : (key.takeWhile (fun c => c ≠ '(')).drop (sep + 1) = b := by
                  rw [hdec, ← hlen]
                  rw [show a ++ c :: b = (a ++ [c]) ++ b from by simp]
                  exact List.drop_left' (by simp)
                refine ⟨c, b, ?_, ?_, ?_, ?_, ?_, ?_, ?_⟩
                · rw [hdec, ← h1, htake]
                · exact (by simpa [sepChar] using hc : c = '/' ∨ c = '@')
                · rw [← h1, htake]
                  intro ha
                  rw [ha] at hlen
                  simp at hlen
                  omega
                · intro hbnil
                  rw [hdec] at hseplen
                  rw [hbnil] at hdec hseplen
                  simp at hseplen
                  omega
                · intro x hx hor
                  apply hb x hx
                  rcases hor with hh | hh <;> simp [sepChar, hh]
                · rw [← h2, hdrop]
                · rw [← h2]
                  exact hne.2
    · rintro ⟨c, vraw, hdec, hc, hn, hvraw, hfree, hv, hvne⟩
      have hcb : sepChar c = true := by
        rcases hc with h | h <;> simp [sepChar, h]
      have hbfree : ∀ x ∈ vraw, ¬ sepChar x = true := by
        intro x hx hcx
        exact hfree x hx (by simpa [sepChar] using hcx)
      have hL : lastIdxP sepChar (key.takeWhile (fun c => c ≠ '(')) = some n.length := by
        rw [hdec]
        exact lastIdxP_append_last n hcb hbfree
      unfold parsePnpmKey
      rw [hL]
      dsimp only
      have hlen : (key.takeWhile (fun c => c ≠ '(')).length = n.length + 1 + vraw.length := by
        rw [hdec]
        simp
        omega
      have hvlen : 1 ≤ vraw.length := by
        cases vraw with
        | nil => exact absurd rfl hvraw
        | cons _ _ => simp
      rw [if_neg (by
        push_neg
        constructor
        · intro h0
          exact hn (List.length_eq_zero.mp h0)
        · omega)]
      have htake : (key.takeWhile (fun c => c ≠ '(')).take n.length = n := by
        rw [hdec, List.take_left]
      have hdrop : (key.takeWhile (fun c => c ≠ '(')).drop (n.length + 1) = vraw := by
        rw [hdec]
        rw [show n ++ c :: vraw = (n ++ [c]) ++ vraw from by simp]
        exact List.drop_left' (by simp)
      rw [if_neg (by
        push_neg
        refine ⟨fun h0 => hn (htake ▸ h0), ?_⟩
        rw [hdrop, ← hv]
        exact hvne)]
      rw [htake, hdrop, ← hv]

theorem parsePnpm_spec_witness :
    parsePnpmLockfile dbT [str "  /test-package@1.0.0:"]
      = [⟨str "test-package", str "1.0.0"⟩] :=
  parsePnpm_spec.2.2.1

end parser

/-! ## Walker / task collector (internal/scanner, collectTasksForPath) -/

namespace scanner

/-- `scanner.ScanConfig`.  The exclusion regexp is abstracted to its
`MatchString` behaviour, a predicate on full paths. -/
structure ScanConfig where
  TargetPaths : List Str
  DatabasePath : Str
  Recursive : Bool
  IncludeGit : Bool
  IncludeNodeModules : Bool
  ExcludeRegex : Option (Str → Bool)

def excludeMatches (cfg : ScanConfig) (path : Str) : Bool :=
  match cfg.ExcludeRegex with
  | some f => f path
  | none => false

/-- `scanner.isLockfile`. -/
def isLockfileM (name : Str) : Bool := (LockfileParsersM name).isSome

/-- ASCII simple case folding (the fold `strings.EqualFold` performs on
the ASCII names compared by `isExcludedDir`). -/
def asciiLower (c : Char) : Char :=
  if 'A' ≤ c ∧ c ≤ 'Z' then Char.ofNat (c.toNat + 32) else c

def eqFold (a b : Str) : Bool := a.map asciiLower = b.map asciiLower

/-- `scanner.isExcludedDir`. -/
def isExcludedDir (cfg : ScanConfig) (dirName : Str) : Bool :=
  (!cfg.IncludeNodeModules && eqFold dirName (str "node_modules")) ||
  (!cfg.IncludeGit && eqFold dirName (str ".git"))

/-- A directory tree as visited by `filepath.WalkDir`. -/
inductive FSNode where
  | file (name : Str)
  | dir (name : Str) (children : List FSNode)

def nodeName : FSNode → Str
  | FSNode.file name => name
  | FSNode.dir name _ => name

mutual

/-- The `filepath.WalkDir` callback of `collectTasksForPath` at one node
whose full path is `selfPath`: exclusion is tested first (skipping the
whole subtree of a matching directory, or the single matching file); a
non-root directory is not entered when `recursive` is unset; `.git` and
`node_modules` directories are skipped unless included; files named like a
registered lockfile produce one task for their containing directory. -/
def visitEntry (cfg : ScanConfig) (base selfPath : Str) : FSNode → List scanTask
  | FSNode.file name =>
    if excludeMatches cfg selfPath then []
    else if isLockfileM name then [⟨dirOfM selfPath, name⟩] else []
  | FSNode.dir name children =>
    if excludeMatches cfg selfPath then []
    else if selfPath ≠ base ∧ ¬ cfg.Recursive = true then []
    else if isExcludedDir cfg name then []
    else visitChildren cfg base selfPath children

/-- Walk the entries of a directory in order. -/
def visitChildren (cfg : ScanConfig) (base parent : Str) : List FSNode → List scanTask
  | [] => []
  | c :: cs =>
    visitEntry cfg base (joinPath parent (nodeName c)) c ++
      visitChildren cfg base parent cs

end

/-- `scanner.collectTasksForPath` on a resolved target path: a file target
is emitted directly when its base name is a registered lockfile (with no
exclusion test); a directory target is walked. -/
def collectTasksForPath (cfg : ScanConfig) (abs : Str) (node : FSNode) :
    List scanTask :=
  match node with
  | FSNode.file _ =>
    if isLockfileM (baseOfM abs) then [⟨dirOfM abs, baseOfM abs⟩] else []
  | FSNode.dir name children => visitEntry cfg abs abs (FSNode.dir name children)

mutual

/-- The tree with every subtree or file whose full path matches the
exclusion predicate removed. -/
def pruneEntry (cfg : ScanConfig) (selfPath : Str) : FSNode → FSNode
  | FSNode.file name => FSNode.file name
  | FSNode.dir name children => FSNode.dir name (pruneChildren cfg selfPath children)

def pruneChildren (cfg : ScanConfig) (parent : Str) : List FSNode → List FSNode
  | [] => []
  | c :: cs =>
    if excludeMatches cfg (joinPath parent (nodeName c)) then
      pruneChildren cfg parent cs
    else
      pruneEntry cfg (joinPath parent (nodeName c)) c :: pruneChildren cfg parent cs

end

/-- Tree names suitable for path reasoning: nonempty, slash-free. -/
def nameOk (n : Str) : Bool := !(n = ([] : Str)) && !(('/' : Char) ∈ n)

mutual

def wfNode : FSNode → Bool
  | FSNode.file name => nameOk name
  | FSNode.dir name children => nameOk name && wfChildren children

def wfChildren : List FSNode → Bool
  | [] => true
  | c :: cs => wfNode c && wfChildren cs

end

theorem joinPath_ne (p n : Str) : joinPath p n ≠ p := by
  intro h
  have := congrArg List.length h
  simp [joinPath] at this

theorem dirOfM_joinPath {p n : Str} (hp : p ≠ []) (hn : ('/' : Char) ∉ n) :
    dirOfM (joinPath p n) = p := by
  have hL : lastIdxP (fun c => c = '/') (p ++ '/' :: n) = some p.length := by
    apply parser.lastIdxP_append_last
    · simp
    · intro x hx
      simp only [decide_eq_true_eq]
      intro he
      exact hn (he ▸ hx)
  rw [dirOfM, joinPath] at *
  rw [hL]
  obtain ⟨m, hm⟩ : ∃ m, p.length = m + 1 := by
    cases hq : p.length with
    | zero => exact absurd (List.length_eq_zero.mp hq) hp
    | succ m => exact ⟨m, rfl⟩
  rw [hm]
  show List.take (m + 1) (p ++ '/' :: n) = p
  rw [← hm, List.take_left]

theorem joinPath_ne_nil (p n : Str) : joinPath p n ≠ [] := by
  simp [joinPath]

theorem visitEntry_excluded (cfg : ScanConfig) (base p : Str) (node : FSNode)
    (h : excludeMatches cfg p = true) : visitEntry cfg base p node = [] := by
  cases node <;> simp [visitEntry, h]

mutual

theorem visit_prune_entry (cfg : ScanConfig) (base : Str) (node : FSNode)
    (p : Str) :
    visitEntry cfg base p node = visitEntry cfg base p (pruneEntry cfg p node) := by
  cases node with
  | file name => rfl
  | dir name children =>
    simp only [pruneEntry, visitEntry]
    split
    · rfl
    · split
      · rfl
      · split
        · rfl
        · exact visit_prune_children cfg base children p

theorem visit_prune_children (cfg : ScanConfig) (base : Str) (cs : List FSNode)
    (parent : Str) :
    visitChildren cfg base parent cs
      = visitChildren cfg base parent (pruneChildren cfg parent cs) := by
  cases cs with
  | nil => rfl
  | cons c cs' =>
    simp only [pruneChildren]
    by_cases hex : excludeMatches cfg (joinPath parent (nodeName c)) = true
    · rw [if_pos hex]
      simp only [visitChildren]
      rw [visitEntry_excluded cfg base _ c hex, List.nil_append]
      exact visit_prune_children cfg base cs' parent
    · rw [if_neg hex]
      simp only [visitChildren]
      have hname : nodeName (pruneEntry cfg (joinPath parent (nodeName c)) c)
          = nodeName c := by
        cases c <;> rfl
      rw [hname]
      rw [← visit_prune_entry cfg base c (joinPath parent (nodeName c))]
      rw [← visit_prune_children cfg base cs' parent]

end

mutual

theorem visit_not_excluded_entry (cfg : ScanConfig) (base : Str) (c : FSNode)
    (parent : Str) (hp : parent ≠ []) (hwf : wfNode c = true) :
    ∀ t ∈ visitEntry cfg base (joinPath parent (nodeName c)) c,
      excludeMatches cfg (joinPath t.Dir t.Lockfile) = false := by
  cases c with
  | file name =>
    intro t ht
    simp only [visitEntry, nodeName] at ht
    by_cases hex : excludeMatches cfg (joinPath parent name) = true
    · rw [if_pos hex] at ht
      exact absurd ht (by simp)
    · rw [if_neg hex] at ht
      by_cases hlf : isLockfileM name = true
      · rw [if_pos hlf] at ht
        simp at ht
        have hnm : ('/' : Char) ∉ name := by
          simp [wfNode, nameOk] at hwf
          exact hwf.2
        rw [ht]
        show excludeMatches cfg (joinPath (dirOfM (joinPath parent name)) name) = false
        rw [dirOfM_joinPath hp hnm]
        simpa using hex
      · rw [if_neg hlf] at ht
        exact absurd ht (by simp)
  | dir name children =>
    intro t ht
    simp only [visitEntry, nodeName] at ht
    split at ht
    · exact absurd ht (by simp)
    · split at ht
      · exact absurd ht (by simp)
      · split at ht
        · exact absurd ht (by simp)
        · have hwf' : wfChildren children = true := by
            simp [wfNode] at hwf
            exact hwf.2
          exact visit_not_excluded_children cfg base children
            (joinPath parent name) (joinPath_ne_nil parent name) hwf' t ht

theorem visit_not_excluded_children (cfg : ScanConfig) (base : Str)
    (cs : List FSNode) (parent : Str) (hp : parent ≠ [])
    (hwf : wfChildren cs = true) :
    ∀ t ∈ visitChildren cfg base parent cs,
      excludeMatches cfg (joinPath t.Dir t.Lockfile) = false := by
  cases cs with
  | nil =>
    intro t ht
    exact absurd ht (by simp [visitChildren])
  | cons c cs' =>
    intro t ht
    simp only [visitChildren] at ht
    rcases List.mem_append.mp ht with h | h
    · refine visit_not_excluded_entry cfg base c parent hp ?_ t h
      simp [wfChildren] at hwf
      exact hwf.1
    · refine visit_not_excluded_children cfg base cs' parent hp ?_ t h
      simp [wfChildren] at hwf
      exact hwf.2

end

/-- The configuration of the C6 counterexample: the exclusion pattern
matches exactly the target lockfile's full path. -/
def cfgCE : ScanConfig :=
  ⟨[str "/a/package-lock.json"], [], false, false, false,
   some (fun p => decide (p = str "/a/package-lock.json"))⟩

/-- C6 counterexample: with an exclusion pattern configured that matches
the lockfile's full path, `collectTasksForPath` on that lockfile given
directly as a (file) target still emits the task — the file-target branch
performs no exclusion test — refuting "the task collector never emits a
task for a lockfile whose full path matches the pattern". -/
theorem exclusion_counterexample :
    collectTasksForPath cfgCE (str "/a/package-lock.json")
        (FSNode.file (str "package-lock.json"))
      = [⟨str "/a", str "package-lock.json"⟩] ∧
    excludeMatches cfgCE
        (joinPath (str "/a") (str "package-lock.json")) = true := by
  constructor
  · decide
  · decide

/-- C6 (amended): during the walk of a directory target, the exclusion
test is applied at each visited path before any other rule: a matching
path yields nothing (the whole subtree for a directory, the single file
otherwise), no emitted task's lockfile path matches the pattern, and the
walk equals the walk of the tree with all excluded subtrees removed.  A
lockfile given directly as a target path bypasses the test (see the
counterexample). -/
theorem exclusion_precedence (cfg : ScanConfig) (pat : Str → Bool)
    (hex : cfg.ExcludeRegex = some pat)
    (base : Str) (hbase : base ≠ []) (name : Str) (cs : List FSNode)
    (hwf : wfNode (FSNode.dir name cs) = true) :
    (∀ (p : Str) (node : FSNode), pat p = true →
        visitEntry cfg base p node = []) ∧
    (∀ t ∈ collectTasksForPath cfg base (FSNode.dir name cs),
        pat (joinPath t.Dir t.Lockfile) = false) ∧
    collectTasksForPath cfg base (FSNode.dir name cs)
      = visitEntry cfg base base (pruneEntry cfg base (FSNode.dir name cs)) := by
  have hexm : ∀ q, excludeMatches cfg q = pat q := by
    intro q
    simp [excludeMatches, hex]
  refine ⟨?_, ?_, ?_⟩
  · intro p node h
    exact visitEntry_excluded cfg base p node ((hexm p).trans h)
  · intro t ht
    rw [show collectTasksForPath cfg base (FSNode.dir name cs)
        = visitEntry cfg base base (FSNode.dir name cs) from rfl] at ht
    simp only [visitEntry] at ht
    split at ht
    · exact absurd ht (by simp)
    · split at ht
      · exact absurd ht (by simp)
      · split at ht
        · exact absurd ht (by simp)
        · have hwf' : wfChildren cs = true := by
            simp [wfNode] at hwf
            exact hwf.2
          rw [← hexm]
          exact visit_not_excluded_children cfg base cs base hbase hwf' t ht
  · exact visit_prune_entry cfg base (FSNode.dir name cs) base

/-- The tree of the walker witnesses: a root with one lockfile, one
excluded subdirectory holding a lockfile, and one nested directory with a
lockfile. -/
def treeW : FSNode :=
  FSNode.dir (str "r")
    [FSNode.file (str "yarn.lock"),
     FSNode.dir (str "skip") [FSNode.file (str "package-lock.json")],
     FSNode.dir (str "sub") [FSNode.file (str "pnpm-lock.yaml")]]

def cfgW : ScanConfig :=
  ⟨[str "/r"], [], true, false, false,
   some (fun p => decide (p = str "/r/skip"))⟩

theorem exclusion_precedence_witness :
    (∀ (p : Str) (node : FSNode),
        (fun q => decide (q = str "/r/skip")) p = true →
        visitEntry cfgW (str "/r") p node = []) ∧
    (∀ t ∈ collectTasksForPath cfgW (str "/r")
        (FSNode.dir (str "r")
          [FSNode.file (str "yarn.lock"),
           FSNode.dir (str "skip") [FSNode.file (str "package-lock.json")],
           FSNode.dir (str "sub") [FSNode.file (str "pnpm-lock.yaml")]]),
        (fun q => decide (q = str "/r/skip")) (joinPath t.Dir t.Lockfile) = false) ∧
    collectTasksForPath cfgW (str "/r")
        (FSNode.dir (str "r")
          [FSNode.file (str "yarn.lock"),
           FSNode.dir (str "skip") [FSNode.file (str "package-lock.json")],
           FSNode.dir (str "sub") [FSNode.file (str "pnpm-lock.yaml")]])
      = visitEntry cfgW (str "/r") (str "/r")
          (pruneEntry cfgW (str "/r")
            (FSNode.dir (str "r")
              [FSNode.file (str "yarn.lock"),
               FSNode.dir (str "skip") [FSNode.file (str "package-lock.json")],
               FSNode.dir (str "sub") [FSNode.file (str "pnpm-lock.yaml")]])) :=
  exclusion_precedence cfgW (fun q => decide (q = str "/r/skip")) rfl
    (str "/r") (by decide) (str "r")
    [FSNode.file (str "yarn.lock"),
     FSNode.dir (str "skip") [FSNode.file (str "package-lock.json")],
     FSNode.dir (str "sub") [FSNode.file (str "pnpm-lock.yaml")]]
    (by decide)

theorem visitChildren_nonrec (cfg : ScanConfig) (hrec : cfg.Recursive = false)
    (base : Str) (cs : List FSNode) :
    visitChildren cfg base base cs
      = cs.filterMap (fun c =>
          match c with
          | FSNode.file m =>
            if excludeMatches cfg (joinPath base m) = true then none
            else if isLockfileM m = true then
              some ⟨dirOfM (joinPath base m), m⟩
            else none
          | FSNode.dir _ _ => none) := by
  induction cs with
  | nil => rfl
  | cons c cs' ih =>
    simp only [visitChildren, List.filterMap_cons]
    cases c with
    | file m =>
      simp only [nodeName]
      by_cases hex : excludeMatches cfg (joinPath base m) = true
      · rw [show visitEntry cfg base (joinPath base m) (FSNode.file m) = [] from
          visitEntry_excluded cfg base _ _ hex]
        rw [if_pos hex, List.nil_append]
        exact ih
      · rw [if_neg hex]
        by_cases hlf : isLockfileM m = true
        · rw [show visitEntry cfg base (joinPath base m) (FSNode.file m)
              = [⟨dirOfM (joinPath base m), m⟩] from by
            simp only [visitEntry]
            rw [if_neg (by simp [hex]), if_pos hlf]]
          rw [if_pos hlf, ih]
          rfl
        · rw [show visitEntry cfg base (joinPath base m) (FSNode.file m) = [] from by
            simp only [visitEntry]
            rw [if_neg (by simp [hex]), if_neg hlf]]
          rw [if_neg hlf, List.nil_append]
          exact ih
    | dir n ch =>
      simp only [nodeName]
      have hvd : visitEntry cfg base (joinPath base n) (FSNode.dir n ch) = [] := by
        simp only [visitEntry]
        by_cases hex : excludeMatches cfg (joinPath base n) = true
        · rw [if_pos hex]
        · rw [if_neg hex, if_pos ⟨joinPath_ne base n, by simp [hrec]⟩]
      rw [hvd, List.nil_append]
      exact ih

/-- C7: with the recursive flag unset, a directory target yields exactly
the tasks of the recognized lockfiles lying directly in the root
directory (subject to the root-level exclusion and ignored-directory
checks); subdirectories at any depth contribute nothing. -/
theorem non_recursive_scope (cfg : ScanConfig) (hrec : cfg.Recursive = false)
    (base : Str) (name : Str) (cs : List FSNode) :
    collectTasksForPath cfg base (FSNode.dir name cs)
      = if excludeMatches cfg base = true then []
        else if isExcludedDir cfg name = true then []
        else cs.filterMap (fun c =>
          match c with
          | FSNode.file m =>
            if excludeMatches cfg (joinPath base m) = true then none
            else if isLockfileM m = true then
              some ⟨dirOfM (joinPath base m), m⟩
            else none
          | FSNode.dir _ _ => none) := by
  rw [show collectTasksForPath cfg base (FSNode.dir name cs)
      = visitEntry cfg base base (FSNode.dir name cs) from rfl]
  simp only [visitEntry]
  by_cases hex : excludeMatches cfg base = true
  · rw [if_pos hex, if_pos hex]
  · rw [if_neg hex, if_neg hex]
    rw [if_neg (by simp)]
    by_cases hsd : isExcludedDir cfg name = true
    · rw [if_pos hsd, if_pos hsd]
    · rw [if_neg hsd, if_neg hsd]
      exact visitChildren_nonrec cfg hrec base cs

def cfgW2 : ScanConfig :=
  ⟨[str "/r"], [], false, false, false, none⟩

theorem non_recursive_scope_witness :
    collectTasksForPath cfgW2 (str "/r")
        (FSNode.dir (str "r")
          [FSNode.file (str "yarn.lock"),
           FSNode.dir (str "skip") [FSNode.file (str "package-lock.json")],
           FSNode.dir (str "sub") [FSNode.file (str "pnpm-lock.yaml")]])
      = if excludeMatches cfgW2 (str "/r") = true then []
        else if isExcludedDir cfgW2 (str "r") = true then []
        else [FSNode.file (str "yarn.lock"),
          FSNode.dir (str "skip") [FSNode.file (str "package-lock.json")],
          FSNode.dir (str "sub") [FSNode.file (str "pnpm-lock.yaml")]].filterMap
          (fun c =>
            match c with
            | FSNode.file m =>
              if excludeMatches cfgW2 (joinPath (str "/r") m) = true then none
              else if isLockfileM m = true then
                some ⟨dirOfM (joinPath (str "/r") m), m⟩
              else none
            | FSNode.dir _ _ => none) :=
  non_recursive_scope cfgW2 rfl (str "/r") (str "r")
    [FSNode.file (str "yarn.lock"),
     FSNode.dir (str "skip") [FSNode.file (str "package-lock.json")],
     FSNode.dir (str "sub") [FSNode.file (str "pnpm-lock.yaml")]]

end scanner

/-! ## Yarn classic parser (internal/parser/yarn.go)

`yarnPattern` is the Go regexp

  `(?m)^['"]?(@?[^@"\s']+)@.+?['"]?:\s*(?:\r?\n|\r)\s*version(?:\s+|:\s+)["']?([^"\s']+)["']?`

applied with `FindAllSubmatch`.  RE2's leftmost-first semantics are
hand-compiled below into a deterministic matcher: every quantifier's
backtracking collapses because the character classes exclude the
delimiters (`[^@"\s']` contains no `@`, quote or whitespace, so the greedy
run and the optional quotes admit exactly one viable choice), the lazy
`.+?` is a minimal search implemented by `yarnLazy`, and
`\s*(?:\r?\n|\r)\s*` matches exactly when the whitespace run after the
colon contains a newline or carriage return, ending after the whole
run. -/

namespace parser

open scanner (Vulnerability)
open database (VulnerabilityDatabase IsInfected)

theorem length_dropWhile_le (p : Char → Bool) (l : Str) :
    (l.dropWhile p).length ≤ l.length := by
  induction l with
  | nil => simp [List.dropWhile]
  | cons c t ih =>
    rw [List.dropWhile]
    cases hc : p c with
    | false => exact Nat.le_refl _
    | true =>
      show (List.dropWhile p t).length ≤ (c :: t).length
      simp only [List.length_cons]
      omega

/-- The class `[^@"\s']` (header capture). -/
def yarnClassA (c : Char) : Bool :=
  !(c = '@' || c = '"' || c = '\'' || isRE2space c)

/-- The class `[^"\s']` (version capture). -/
def yarnClassB (c : Char) : Bool :=
  !(c = '"' || c = '\'' || isRE2space c)

/-- Consume one optional quote (`['"]?` / `["']?`). -/
def optQuote (s : Str) : Str :=
  match s with
  | c :: t => if quoteChar c then t else s
  | [] => s

/-- `(?:\s+|:\s+)` after the `version` literal. -/
def yarnSep (s : Str) : Option Str :=
  match s with
  | [] => none
  | c :: t =>
    if isRE2space c then some ((c :: t).dropWhile isRE2space)
    else if c = ':' then
      match t with
      | [] => none
      | d :: _ => if isRE2space d then some (t.dropWhile isRE2space) else none
    else none

/-- `(?:\s+|:\s+)["']?([^"\s']+)["']?`: the version capture and the
position right after the whole match. -/
def yarnAfterVersion (s : Str) : Option (Str × Str) :=
  match yarnSep s with
  | none => none
  | some s5 =>
    if (optQuote s5).takeWhile yarnClassB = [] then none
    else some ((optQuote s5).takeWhile yarnClassB,
      optQuote ((optQuote s5).dropWhile yarnClassB))

/-- `['"]?:\s*(?:\r?\n|\r)\s*version(?:\s+|:\s+)["']?([^"\s']+)["']?` at a
given position (the continuation the lazy `.+?` searches for). -/
def yarnVersionAt (s : Str) : Option (Str × Str) :=
  match optQuote s with
  | ':' :: s2 =>
    if ('\n' ∈ s2.takeWhile isRE2space ∨ '\r' ∈ s2.takeWhile isRE2space) then
      if (str "version").isPrefixOf (s2.dropWhile isRE2space) then
        yarnAfterVersion ((s2.dropWhile isRE2space).drop 7)
      else none
    else none
  | _ => none

/-- The lazy `.+?`: consume at least one non-newline character, then look
for the tail at each subsequent position, preferring the shortest
extension. -/
def yarnLazy : Str → Option (Str × Str)
  | [] => none
  | c :: rest =>
    if c = '\n' then none
    else
      match yarnVersionAt rest with
      | some r => some r
      | none => yarnLazy rest

/-- `@?` inside the capture group. -/
def yarnLead (s : Str) : Str × Str :=
  match s with
  | '@' :: t => (['@'], t)
  | _ => ([], s)

/-- One attempted match of `yarnPattern` at a line start: optional quote,
optional leading `@`, nonempty greedy `[^@"\s']+` run, a literal `@`, then
the lazy search for the version tail.  Returns the two captures and the
position after the match. -/
def yarnMatchAt (s : Str) : Option (Str × Str × Str) :=
  if (yarnLead (optQuote s)).2.takeWhile yarnClassA = [] then none
  else
    match (yarnLead (optQuote s)).2.dropWhile yarnClassA with
    | '@' :: s4 =>
      match yarnLazy s4 with
      | some (v, r) =>
        some ((yarnLead (optQuote s)).1 ++
          (yarnLead (optQuote s)).2.takeWhile yarnClassA, v, r)
      | none => none
    | _ => none

/-- `FindAllSubmatch`: scan left to right, attempting a match at every
line start ((?m)`^` holds at the start of the text and after each `'\n'`),
and resume after the end of each non-overlapping match.  The fuel is the
length of the remaining input; each step consumes at least one character,
so `s.length` fuel always suffices (see `yarnScanB_fuel`). -/
def yarnScanB : Nat → Str → Bool → List (Str × Str)
  | 0, _, _ => []
  | Nat.succ n, s, atStart =>
    match s with
    | [] => []
    | c :: rest =>
      if atStart then
        match yarnMatchAt (c :: rest) with
        | some (nm, v, r) => (nm, v) :: yarnScanB n r false
        | none => yarnScanB n rest (c = '\n')
      else yarnScanB n rest (c = '\n')

def yarnScan (s : Str) (atStart : Bool) : List (Str × Str) :=
  yarnScanB s.length s atStart

/-- `parser.parseYarnLockfile`: every matched block's captures, filtered
through the database. -/
def parseYarnLockfile (db : VulnerabilityDatabase) (data : Str) :
    List Vulnerability :=
  (yarnScan data true).foldl
    (fun acc p => if IsInfected db p.1 p.2 then acc ++ [⟨p.1, p.2⟩] else acc) []

theorem optQuote_length (s : Str) : (optQuote s).length ≤ s.length := by
  cases s with
  | nil => simp [optQuote]
  | cons c t =>
    by_cases h : quoteChar c = true <;> simp [optQuote, h]

theorem yarnSep_length {s r : Str} (h : yarnSep s = some r) :
    r.length ≤ s.length := by
  unfold yarnSep at h
  split at h
  · exact Option.noConfusion h
  · next c t =>
      split at h
      · rw [Option.some_inj] at h
        rw [← h]
        exact length_dropWhile_le _ _
      · split at h
        · split at h
          · exact Option.noConfusion h
          · split at h
            · rw [Option.some_inj] at h
              rw [← h]
              refine le_trans (length_dropWhile_le _ _) ?_
              simp only [List.length_cons]
              omega
            · exact Option.noConfusion h
        · exact Option.noConfusion h

theorem yarnAfterVersion_length {s : Str} {v r : Str}
    (h : yarnAfterVersion s = some (v, r)) : r.length ≤ s.length := by
  unfold yarnAfterVersion at h
  split at h
  · exact Option.noConfusion h
  · next s5 heq =>
      split at h
      · exact Option.noConfusion h
      · rw [Option.some_inj, Prod.ext_iff] at h
        obtain ⟨-, h2⟩ := h
        dsimp only at h2
        have e1 := optQuote_length ((optQuote s5).dropWhile yarnClassB)
        have e2 := length_dropWhile_le yarnClassB (optQuote s5)
        have e3 := optQuote_length s5
        have e4 := yarnSep_length heq
        rw [← h2]
        omega

theorem yarnVersionAt_length {s : Str} {v r : Str}
    (h : yarnVersionAt s = some (v, r)) : r.length ≤ s.length := by
  unfold yarnVersionAt at h
  split at h
  · next s2 heq =>
      split at h
      · split at h
        · have e1 := yarnAfterVersion_length h
          have e2 : ((s2.dropWhile isRE2space).drop 7).length
              ≤ (s2.dropWhile isRE2space).length := by
            rw [List.length_drop]
            omega
          have e3 := length_dropWhile_le isRE2space s2
          have e4 : s2.length + 1 = (optQuote s).length := by
            rw [heq]
            rfl
          have e5 := optQuote_length s
          omega
        · exact Option.noConfusion h
      · exact Option.noConfusion h
  · exact Option.noConfusion h

theorem yarnLazy_length : ∀ {s : Str} {v r : Str},
    yarnLazy s = some (v, r) → r.length < s.length := by
  intro s
  induction s with
  | nil => intro v r h; exact Option.noConfusion h
  | cons c rest ih =>
    intro v r h
    rw [yarnLazy] at h
    split at h
    · exact Option.noConfusion h
    · split at h
      · next p heq =>
          obtain ⟨v', r'⟩ := p
          rw [Option.some_inj] at h
          cases h
          have := yarnVersionAt_length heq
          simp only [List.length_cons]
          omega
      · have := ih h
        simp only [List.length_cons]
        omega

theorem yarnMatchAt_length {s : Str} {n v r : Str}
    (h : yarnMatchAt s = some (n, v, r)) : r.length < s.length := by
  unfold yarnMatchAt at h
  split at h
  · exact Option.noConfusion h
  · split at h
    · next s4 heq =>
        rcases heqL : yarnLazy s4 with _ | ⟨v', r'⟩
        · rw [heqL] at h
          exact Option.noConfusion h
        · rw [heqL] at h
          dsimp only at h
          rw [Option.some_inj] at h
          cases h
          have e1 := yarnLazy_length heqL
          have e2 : s4.length < ((yarnLead (optQuote s)).2.dropWhile yarnClassA).length := by
            rw [heq]
            simp
          have e3 := length_dropWhile_le yarnClassA (yarnLead (optQuote s)).2
          have e4 : (yarnLead (optQuote s)).2.length ≤ (optQuote s).length := by
            unfold yarnLead
            split
            · next t heq3 =>
                rw [heq3]
                simp
            · exact Nat.le_refl _
          have e5 := optQuote_length s
          omega
    · exact Option.noConfusion h

/-- Any fuel of at least the input's length computes the same scan: each
step strictly shortens the remaining input. -/
theorem yarnScanB_fuel : ∀ (L : Nat) (s : Str), s.length ≤ L →
    ∀ (N M : Nat) (st : Bool), s.length ≤ N → s.length ≤ M →
      yarnScanB N s st = yarnScanB M s st := by
  intro L
  induction L with
  | zero =>
    intro s hs N M st hN hM
    have : s = [] := List.length_eq_zero.mp (by omega)
    subst this
    cases N <;> cases M <;> rfl
  | succ L ih =>
    intro s hs N M st hN hM
    cases s with
    | nil => cases N <;> cases M <;> rfl
    | cons c rest =>
      obtain ⟨N', rfl⟩ : ∃ N', N = N' + 1 := by
        cases N with
        | zero => simp at hN
        | succ k => exact ⟨k, rfl⟩
      obtain ⟨M', rfl⟩ : ∃ M', M = M' + 1 := by
        cases M with
        | zero => simp at hM
        | succ k => exact ⟨k, rfl⟩
      have hrest : rest.length ≤ L := by
        simp at hs
        omega
      have hrN : rest.length ≤ N' := by simp at hN; omega
      have hrM : rest.length ≤ M' := by simp at hM; omega
      cases st with
      | false =>
        show yarnScanB (N' + 1) (c :: rest) false = yarnScanB (M' + 1) (c :: rest) false
        rw [show yarnScanB (N' + 1) (c :: rest) false
            = yarnScanB N' rest (decide (c = '\n')) from rfl]
        rw [show yarnScanB (M' + 1) (c :: rest) false
            = yarnScanB M' rest (decide (c = '\n')) from rfl]
        exact ih rest hrest N' M' (decide (c = '\n')) hrN hrM
      | true =>
        rw [show yarnScanB (N' + 1) (c :: rest) true
            = (match yarnMatchAt (c :: rest) with
               | some (nm, v, r) => (nm, v) :: yarnScanB N' r false
               | none => yarnScanB N' rest (decide (c = '\n'))) from rfl]
        rw [show yarnScanB (M' + 1) (c :: rest) true
            = (match yarnMatchAt (c :: rest) with
               | some (nm, v, r) => (nm, v) :: yarnScanB M' r false
               | none => yarnScanB M' rest (decide (c = '\n'))) from rfl]
        rcases hm : yarnMatchAt (c :: rest) with _ | ⟨nm, v, r⟩
        · exact ih rest hrest N' M' (decide (c = '\n')) hrN hrM
        · have hr := yarnMatchAt_length hm
          simp only [List.length_cons] at hr
          have hrL : r.length ≤ L := by omega
          have hrN' : r.length ≤ N' := by simp only [List.length_cons] at hN; omega
          have hrM' : r.length ≤ M' := by simp only [List.length_cons] at hM; omega
          exact congrArg _ (ih r hrL N' M' false hrN' hrM')

theorem yarnLead_fst (s : Str) :
    (yarnLead s).1 = [] ∨ (yarnLead s).1 = ['@'] := by
  unfold yarnLead
  split
  · exact Or.inr rfl
  · exact Or.inl rfl

theorem mem_takeWhile_pred {p : Char → Bool} :
    ∀ {l : Str} {x : Char}, x ∈ l.takeWhile p → p x = true := by
  intro l
  induction l with
  | nil => intro x hx; exact absurd hx (by simp [List.takeWhile])
  | cons c t ih =>
    intro x hx
    rw [List.takeWhile] at hx
    cases hc : p c with
    | false =>
      rw [hc] at hx
      exact absurd hx (by simp)
    | true =>
      rw [hc] at hx
      rcases List.mem_cons.mp hx with rfl | hx'
      · exact hc
      · exact ih hx'

/-- The structure of the first capture of any successful match: an
optional leading `@` followed by a nonempty run of characters from the
class `[^@"\s']` — in particular, no `@`, quote or whitespace after the
optional leading scope marker. -/
theorem yarnMatchAt_name {s : Str} {n v r : Str}
    (h : yarnMatchAt s = some (n, v, r)) :
    ∃ lead run, n = lead ++ run ∧ (lead = [] ∨ lead = ['@']) ∧ run ≠ [] ∧
      ∀ c ∈ run, yarnClassA c = true := by
  unfold yarnMatchAt at h
  split at h
  · exact Option.noConfusion h
  · next hne =>
      split at h
      · rcases heqL : yarnLazy _ with _ | ⟨v', r'⟩
        · rw [heqL] at h
          exact Option.noConfusion h
        · rw [heqL] at h
          dsimp only at h
          rw [Option.some_inj] at h
          obtain ⟨h1, -⟩ := Prod.ext_iff.mp h
          dsimp only at h1
          refine ⟨(yarnLead (optQuote s)).1,
            (yarnLead (optQuote s)).2.takeWhile yarnClassA, h1.symm,
            yarnLead_fst (optQuote s), hne, ?_⟩
          intro c hc
          exact mem_takeWhile_pred hc
      · exact Option.noConfusion h

/-- Every pair produced by the scanner comes from a successful
`yarnMatchAt`. -/
theorem yarnScanB_all {P : Str × Str → Prop}
    (hP : ∀ (s : Str) (nm v r : Str), yarnMatchAt s = some (nm, v, r) → P (nm, v)) :
    ∀ (N : Nat) (s : Str) (st : Bool), ∀ p ∈ yarnScanB N s st, P p := by
  intro N
  induction N with
  | zero =>
    intro s st p hp
    exact absurd hp (by simp [yarnScanB])
  | succ N ih =>
    intro s st p hp
    cases s with
    | nil => exact absurd hp (by simp [yarnScanB])
    | cons c rest =>
      cases st with
      | false =>
        rw [show yarnScanB (N + 1) (c :: rest) false
            = yarnScanB N rest (decide (c = '\n')) from rfl] at hp
        exact ih rest (decide (c = '\n')) p hp
      | true =>
        rw [show yarnScanB (N + 1) (c :: rest) true
            = (match yarnMatchAt (c :: rest) with
               | some (nm, v, r) => (nm, v) :: yarnScanB N r false
               | none => yarnScanB N rest (decide (c = '\n'))) from rfl] at hp
        rcases hm : yarnMatchAt (c :: rest) with _ | ⟨nm, v, r⟩
        · rw [hm] at hp
          exact ih rest (decide (c = '\n')) p hp
        · rw [hm] at hp
          dsimp only at hp
          rcases List.mem_cons.mp hp with rfl | hp'
          · exact hP (c :: rest) nm v r hm
          · exact ih r false p hp'

theorem yarnLoop_eq (db : VulnerabilityDatabase) (l : List (Str × Str)) :
    ∀ init : List Vulnerability,
      l.foldl (fun acc p =>
        if IsInfected db p.1 p.2 then acc ++ [⟨p.1, p.2⟩] else acc) init
      = init ++ l.filterMap
          (fun p => if IsInfected db p.1 p.2 then some ⟨p.1, p.2⟩ else none) := by
  induction l with
  | nil => intro init; simp
  | cons q rest ih =>
    intro init
    rw [List.foldl_cons]
    by_cases h : IsInfected db q.1 q.2 = true
    · rw [if_pos h, ih]
      simp [List.filterMap_cons, h]
    · rw [if_neg h, ih]
      simp [List.filterMap_cons, h]

/-- The database of the yarn counterexample: exactly `pkg:1.0.0`
loaded. -/
def dbY : VulnerabilityDatabase :=
  ⟨(database.buildEntries [str "pkg:1.0.0"]).1, str "db.txt",
   (database.buildEntries [str "pkg:1.0.0"]).2⟩

/-- A yarn block whose header specifier `pkg@npm:alias@1.0.0` contains an
`@` inside the range part. -/
def yarnCE : Str := str "pkg@npm:alias@1.0.0:\n  version \"1.0.0\"\n"

/-- C5 counterexample: for the block `pkg@npm:alias@1.0.0:` the part of
the specifier before the LAST `@` is `pkg@npm:alias`, which is not in the
database — so under the claim the block would yield no finding — yet the
parser reports `(pkg, 1.0.0)`: the name actually checked is the part
before the first `@` following the optional leading scope `@`, not the
last. -/
theorem yarn_last_at_counterexample :
    yarnScan yarnCE true = [(str "pkg", str "1.0.0")] ∧
    parseYarnLockfile dbY yarnCE = [⟨str "pkg", str "1.0.0"⟩] ∧
    IsInfected dbY (str "pkg@npm:alias") (str "1.0.0") = false ∧
    str "pkg" ≠ str "pkg@npm:alias" := by
  refine ⟨by decide, by decide, by decide, by decide⟩

/-- C5 (amended): every matched block of a Yarn classic lockfile yields
exactly one (name, version) candidate, reported iff the database contains
it; the package name checked is the part of the header-line specifier up
to the FIRST `@` that follows the optional leading scope `@` (an optional
leading `@` plus a nonempty run of characters other than `@`, quotes and
whitespace), not the part before the last `@`. -/
theorem yarn_first_at_spec (db : VulnerabilityDatabase) (data : Str) :
    parseYarnLockfile db data
      = (yarnScan data true).filterMap
          (fun p => if IsInfected db p.1 p.2 then some ⟨p.1, p.2⟩ else none) ∧
    ∀ p ∈ yarnScan data true, ∃ lead run, p.1 = lead ++ run ∧
      (lead = [] ∨ lead = ['@']) ∧ run ≠ [] ∧
      ∀ c ∈ run, yarnClassA c = true := by
  constructor
  · rw [parseYarnLockfile, yarnLoop_eq db (yarnScan data true) []]
    rw [List.nil_append]
  · intro p hp
    exact yarnScanB_all
      (P := fun p => ∃ lead run, p.1 = lead ++ run ∧
        (lead = [] ∨ lead = ['@']) ∧ run ≠ [] ∧ ∀ c ∈ run, yarnClassA c = true)
      (fun s nm v r hm => yarnMatchAt_name hm)
      data.length data true p hp

end parser

end Fremen
